import Mathlib

/-!
Verification of the `typesecure` classification / redaction / policy core.

The development shallowly embeds the three source modules:

* `src/classification.ts` — the branding primitive (`isClassified`,
  `classificationOf`, `reveal`, the five Zod-backed constructors);
* `src/redaction.ts`     — the deep redaction traversal (`redact` and its
  suspicious-key heuristic `DEFAULT_SUSPICIOUS_KEY`);
* `src/policy.ts`        — the decision engine (`detectedKindsDeep`,
  `decide`, `assertAllowed`, `policyLog`, `defaultPolicy`).

JavaScript runtime values that the library can encounter are modelled by the
inductive type `JSValue` (a tree: shared references and cycles, which only
matter for the cycle-handling claim, are modelled separately by a heap-based
graph embedding further below).  Recursive traversals in the source are
guarded by a depth limit (`depth > maxDepth` returns immediately, children
are visited at `depth + 1`); we embed them structurally on the remaining
depth *budget* `b = maxDepth + 1 - depth`, so `b = 0` is exactly the
source's `depth > maxDepth` guard and every child call decrements `b`.
-/

namespace TypeSecure

/-- A JavaScript runtime value, as seen by the library's traversals.
`vObj brand plainProto fields` models a non-array object: `brand` is whether
the object carries `TYPESECURE_SYMBOL: true` (a symbol-keyed property, hence
not part of its string-keyed `fields`), `plainProto` is whether its prototype
is `Object.prototype` or `null` (the source's `isPlainObject` test), and
`fields` are its string-keyed enumerable own properties in insertion order
(what `Object.entries` / `Object.values` yield).  `vFun` stands for function
values (`typeof v === "function"`).  In a tree there is no reference
sharing, so the source's `WeakSet`/`WeakMap` identity bookkeeping never
fires and is omitted from the tree embedding (it is modelled in the graph
embedding below). -/
inductive JSValue where
  | vNull
  | vUndefined
  | vBool (b : Bool)
  | vNum (n : Int)
  | vBigInt (n : Int)
  | vStr (s : String)
  | vFun
  | vArr (items : List JSValue)
  | vObj (brand : Bool) (plainProto : Bool) (fields : List (String × JSValue))

/-- The closed set of classification kinds (`DataClassification`). -/
def fiveKinds : List String := ["public", "pii", "secret", "token", "credential"]

/-- The `makeClassified(kind, value)` from `classification.ts`: the object literal
`{ kind, value, [TYPESECURE_SYMBOL]: true }` — branded, plain prototype,
string-keyed fields `kind` then `value` in insertion order. -/
def makeClassified (k : String) (s : String) : JSValue :=
  .vObj true true [("kind", .vStr k), ("value", .vStr s)]

/-- First string-keyed field with the given key (JS property access on the
string-keyed own properties). -/
def fieldOf (fields : List (String × JSValue)) (key : String) : Option JSValue :=
  match fields with
  | [] => none
  | (k, v) :: rest => if k = key then some v else fieldOf rest key

/-- The `isClassified(value)` from `classification.ts`: `typeof value === "object"`,
non-null, `value[TYPESECURE_SYMBOL] === true`, `typeof value.kind === "string"`,
and `"value" in value`.  Note the runtime check only requires `kind` to be of
string type — membership in the five-kind enumeration is *not* checked. -/
def isClassified (v : JSValue) : Bool :=
  match v with
  | .vObj brand _ fields =>
    brand &&
      (match fieldOf fields "kind" with
       | some (.vStr _) => true
       | _ => false) &&
      (fieldOf fields "value").isSome
  | _ => false

/-- The string stored in the `kind` field (only meaningful on objects whose
`kind` field is a string, which `isClassified` guarantees). -/
def kindFieldOf (v : JSValue) : Option String :=
  match v with
  | .vObj _ _ fields =>
    match fieldOf fields "kind" with
    | some (.vStr k) => some k
    | _ => none
  | _ => none

/-- The `classificationOf(value)`: the `kind` if classified, else `undefined`. -/
def classificationOf (v : JSValue) : Option String :=
  if isClassified v then kindFieldOf v else none

/-- The source guards `const kind = classificationOf(v); if (kind) …` with a
JS truthiness test: the empty string is falsy.  `truthyKind v` is the kind
exactly when that guard passes. -/
def truthyKind (v : JSValue) : Option String :=
  match classificationOf v with
  | some k => if k = "" then none else some k
  | none => none

/-- Does the value carry the brand marker (`value[TYPESECURE_SYMBOL] === true`)? -/
def hasBrandB (v : JSValue) : Bool :=
  match v with
  | .vObj brand _ _ => brand
  | _ => false

/-- Is the `kind` field present with string type (`typeof value.kind === "string"`)? -/
def kindIsStringB (v : JSValue) : Bool :=
  match v with
  | .vObj _ _ fields =>
    match fieldOf fields "kind" with
    | some (.vStr _) => true
    | _ => false
  | _ => false

/-- Is a `value` field present (`"value" in value`)? -/
def hasValueFieldB (v : JSValue) : Bool :=
  match v with
  | .vObj _ _ fields => (fieldOf fields "value").isSome
  | _ => false

/-- The `reveal(value)` from `classification.ts`: the property access
`value.value` (no validation; `undefined` when the field is absent). -/
def reveal (v : JSValue) : JSValue :=
  match v with
  | .vObj _ _ fields => (fieldOf fields "value").getD .vUndefined
  | _ => .vUndefined

/-- Zod's `z.string().min(1).parse`: succeeds with the string itself iff it
has at least one character, otherwise throws a validation error. -/
def parseNonEmpty (s : String) : Except String String :=
  if s.length ≥ 1 then .ok s else .error "String must contain at least 1 character(s)"

/-- The `publicText(value)`: validate non-empty, then brand with kind `public`. -/
def publicText (s : String) : Except String JSValue :=
  (parseNonEmpty s).map (makeClassified "public")

/-- The `piiText(value)`. -/
def piiText (s : String) : Except String JSValue :=
  (parseNonEmpty s).map (makeClassified "pii")

/-- The `secretText(value)`. -/
def secretText (s : String) : Except String JSValue :=
  (parseNonEmpty s).map (makeClassified "secret")

/-- The `token(value)`. -/
def token (s : String) : Except String JSValue :=
  (parseNonEmpty s).map (makeClassified "token")

/-- The `credential(value)`. -/
def credential (s : String) : Except String JSValue :=
  (parseNonEmpty s).map (makeClassified "credential")

/-- The constructor belonging to a classification kind. -/
def ctorFor (k : String) (s : String) : Except String JSValue :=
  if k = "public" then publicText s
  else if k = "pii" then piiText s
  else if k = "secret" then secretText s
  else if k = "token" then token s
  else if k = "credential" then credential s
  else .error "unknown kind"

/-! ## Redaction engine (`src/redaction.ts`) -/

/-- Does `needle` occur at the start of `hay`? -/
def charsStartWith : List Char → List Char → Bool
  | [], _ => true
  | _ :: _, [] => false
  | a :: as, b :: bs => a = b && charsStartWith as bs

/-- Does `needle` occur as a contiguous run anywhere in `hay`?  This is what
an unanchored regular-expression alternative tests. -/
def charsHaveSub (needle : List Char) : List Char → Bool
  | [] => charsStartWith needle []
  | b :: bs => charsStartWith needle (b :: bs) || charsHaveSub needle bs

/-- The `DEFAULT_SUSPICIOUS_KEY` is the unanchored case-insensitive regex
`/pass(word)?|pwd|secret|token|api[_-]?key|auth|bearer|cookie|session|private[_-]?key|ssh|credential/i`.
Each alternative matches iff one of these literal fragments occurs in the
(lower-cased) key: `pass(word)?` already matches on `pass` alone, and
`api[_-]?key` / `private[_-]?key` expand to the three spellings each. -/
def suspiciousFragments : List String :=
  ["pass", "pwd", "secret", "token", "apikey", "api_key", "api-key",
   "auth", "bearer", "cookie", "session",
   "privatekey", "private_key", "private-key", "ssh", "credential"]

/-- ASCII lower-casing of one character (the fragments are ASCII, so the
regex's `i` flag only needs ASCII case folding on the key). -/
def charLower (c : Char) : Char :=
  if 65 ≤ c.toNat && c.toNat ≤ 90 then Char.ofNat (c.toNat + 32) else c

/-- The characters of a string, lower-cased. -/
def lowerChars (s : String) : List Char := s.data.map charLower

/-- The `DEFAULT_SUSPICIOUS_KEY.test(key)`: some fragment occurs in the
lower-cased key (the `i` flag is modelled by lower-casing; the fragments are
already lower case). -/
def suspiciousTest (key : String) : Bool :=
  suspiciousFragments.any (fun f => charsHaveSub f.data (lowerChars key))

/-- The `RedactOptions`: all three fields are optional in the source; an absent
options object behaves as all fields absent. -/
structure RedactOptions where
  guessByKey : Option Bool
  placeholder : Option (String → String)
  maxDepth : Option Nat

/-- The `redact(value)` with no options object. -/
def noOptions : RedactOptions := ⟨none, none, none⟩

/-- The `defaultPlaceholder(kind)`: the string `[REDACTED:<kind>]`. -/
def defaultPlaceholder (k : String) : String := "[REDACTED:" ++ k ++ "]"

/-- Is the value `null` or a primitive of type string / number / boolean /
bigint (the types the suspicious-key branch redacts immediately)? -/
def suspRedactable (v : JSValue) : Bool :=
  match v with
  | .vNull => true
  | .vStr _ => true
  | .vNum _ => true
  | .vBool _ => true
  | .vBigInt _ => true
  | _ => false

/-- The inner `walk(v, depth, keyHint)` of `redact`, on the remaining depth
budget `b = maxDepth + 1 - depth` (so `b = 0` is the source's
`depth > maxDepth` early return, and each child call uses `b - 1`).

Besides the transformed value, the walk also returns the list of kinds `k`
for which it replaced a node by the kind-specific `placeholder(k)` (in
traversal order, duplicates kept); `"unknown"` placeholders — depth
fallback and suspicious keys — are deliberately not recorded.  The source's
`WeakMap` cycle cache never fires on tree-shaped data and is omitted here.

Branch order follows the source exactly: depth guard, classified value
(truthy kind), suspicious key over primitives, array, plain object, the
`isClassified` safety net, then pass-through. -/
def redactWalk (gk : Bool) (ph : String → String) :
    Nat → JSValue → Option String → JSValue × List String
  | 0, _, _ => (.vStr (ph "unknown"), [])
  | b + 1, v, keyHint =>
    match truthyKind v with
    | some k => (.vStr (ph k), [k])
    | none =>
      if gk && (match keyHint with
                | some key => suspiciousTest key
                | none => false) && suspRedactable v then
        (.vStr (ph "unknown"), [])
      else
        match v with
        | .vArr items =>
          let rs := items.map (fun it => redactWalk gk ph b it none)
          (.vArr (rs.map Prod.fst), (rs.map Prod.snd).flatten)
        | .vObj _ pl fields =>
          if pl then
            let rs := fields.map (fun kv => (kv.1, redactWalk gk ph b kv.2 (some kv.1)))
            (.vObj false true (rs.map (fun kr => (kr.1, kr.2.1))),
             (rs.map (fun kr => kr.2.2)).flatten)
          else if isClassified v then
            -- the source's safety net `if (isClassified(v)) return placeholder(v.kind)`;
            -- reachable only for a branded non-plain object whose kind is the
            -- empty string (truthy kinds were handled above)
            (.vStr (ph ((kindFieldOf v).getD "")), [(kindFieldOf v).getD ""])
          else (v, [])
        | _ => (v, [])

/-- The `redact(value, options?)`: resolve the option defaults
(`guessByKey ?? true`, `placeholder ?? defaultPlaceholder`,
`maxDepth ?? 25`) and walk from depth 0, i.e. budget `maxDepth + 1`. -/
def redact (v : JSValue) (opts : RedactOptions) : JSValue :=
  (redactWalk (opts.guessByKey.getD true) (opts.placeholder.getD defaultPlaceholder)
    ((opts.maxDepth.getD 25) + 1) v none).1

/-- The kinds for which a default-configured `redact` replaces some node with
the kind-specific placeholder, in traversal order. -/
def redactKindTrace (v : JSValue) : List String :=
  (redactWalk true defaultPlaceholder 26 v none).2

/-! ## Policy engine (`src/policy.ts`) -/

/-- The `PolicyDecision`: `allowed`, optional `reason`, optional `detectedKinds`
(the source populates `detectedKinds` on both branches and `reason` only on
denial). -/
structure PolicyDecision where
  allowed : Bool
  reason : Option String
  detectedKinds : Option (List String)
deriving DecidableEq

/-- The `Policy`: a name, the per-action allow sets (a record keyed by action
name; `ReadonlySet` membership is modelled by list membership), the optional
`redactBefore` set and the optional nested redaction options (an absent
`redaction` field behaves as `redact`'s own defaults, i.e. `noOptions`). -/
structure Policy where
  name : String
  allow : List (String × List String)
  redactBefore : Option (List String)
  redaction : RedactOptions

/-- JS `Set.add` on an insertion-ordered set, modelled as a duplicate-free
list: append the element iff it is not yet present. -/
def insertNew (acc : List String) (k : String) : List String :=
  if acc.contains k then acc else acc ++ [k]

/-- The inner `walk(v, depth)` of `detectedKindsDeep`, on the remaining depth
budget `b = maxDepth + 1 - depth`, threading the insertion-ordered kind set
`acc`.  Branch order follows the source: depth guard, `if (kind) kinds.add`,
arrays, then non-null objects (stopping at classified values, whose kind was
already recorded).  The `WeakSet` identity check never fires on tree-shaped
data and is omitted. -/
def detWalk : Nat → JSValue → List String → List String
  | 0, _, acc => acc
  | b + 1, v, acc =>
    let acc1 := match truthyKind v with
                | some k => insertNew acc k
                | none => acc
    match v with
    | .vArr items => items.foldl (fun a it => detWalk b it a) acc1
    | .vObj _ _ fields =>
      if isClassified v then acc1
      else fields.foldl (fun a kv => detWalk b kv.2 a) acc1
    | _ => acc1

/-- The `detectedKindsDeep(value, maxDepth)` (the caller `decide` always uses the
default `maxDepth = 25`). -/
def detectedKindsDeep (v : JSValue) (maxD : Nat) : List String :=
  detWalk (maxD + 1) v []

/-- The raw in-order sequence of classification kinds discovered by the deep
scan, duplicates kept: the kinds in the order `kinds.add` is invoked on
them. -/
def foundSeq : Nat → JSValue → List String
  | 0, _ => []
  | b + 1, v =>
    (match truthyKind v with
     | some k => [k]
     | none => []) ++
    match v with
    | .vArr items => (items.map (foundSeq b)).flatten
    | .vObj _ _ fields =>
      if isClassified v then []
      else (fields.map (fun kv => foundSeq b kv.2)).flatten
    | _ => []

/-- The kinds found in a value by the deep scan, in order of first
discovery. -/
def discoveredKinds (v : JSValue) : List String := foundSeq 26 v

/-- Collapse duplicates keeping the first occurrence of each element;
`seen` holds the elements already emitted. -/
def dedupAux : List String → List String → List String
  | [], _ => []
  | k :: rest, seen =>
    if seen.contains k then dedupAux rest seen
    else k :: dedupAux rest (k :: seen)

/-- First-occurrence deduplication. -/
def dedupFirst (l : List String) : List String := dedupAux l []

/-- A single-quote character, used by the denial reason string. -/
def sq : String := String.singleton (Char.ofNat 39)

/-- The denial reason built by `decide`:
`Policy <name> disallows kinds [<k1>, <k2>] for action <action>.` with the
name and action wrapped in single quotes. -/
def reasonFor (policyName : String) (disallowed : List String) (action : String) : String :=
  "Policy " ++ sq ++ policyName ++ sq ++ " disallows kinds [" ++
    String.intercalate ", " disallowed ++ "] for action " ++ sq ++ action ++ sq ++ "."

/-- The `decide(policy, action, data)`.  When `action` is a key of `policy.allow`
this is the source's pure computation.  When it is absent,
`policy.allow[action]` is `undefined` in JS, and
`detected.filter((k) => !allowedKinds.has(k))` throws a `TypeError` as soon
as the callback first runs — i.e. exactly when `detected` is non-empty; over
an empty `detected` the callback never runs and the filter result is `[]`,
so the call returns allowed.  The `Except.error` branch models that thrown
`TypeError`. -/
def decideE (p : Policy) (action : String) (data : JSValue) :
    Except String PolicyDecision :=
  let detected := detectedKindsDeep data 25
  match p.allow.lookup action with
  | some allowedKinds =>
    let disallowed := detected.filter (fun k => !(allowedKinds.contains k))
    if disallowed.length > 0 then
      .ok ⟨false, some (reasonFor p.name disallowed action), some detected⟩
    else
      .ok ⟨true, none, some detected⟩
  | none =>
    if detected.isEmpty then .ok ⟨true, none, some detected⟩
    else .error "TypeError: Cannot read properties of undefined (reading has)"

/-- The `assertAllowed(policy, action, data)`: run `decide` and throw
`new Error(d.reason ?? "Policy denied action.")` when not allowed (a
`TypeError` escaping from `decide` itself also propagates). -/
def assertAllowedE (p : Policy) (action : String) (data : JSValue) :
    Except String Unit :=
  match decideE p action data with
  | .error e => .error e
  | .ok d => if d.allowed then .ok () else .error (d.reason.getD "Policy denied action.")

/-- The `policy.redactBefore?.has("log") ?? false`. -/
def shouldRedactLog (p : Policy) : Bool :=
  (p.redactBefore.map (fun s => s.contains "log")).getD false

/-- The `policyLog(policy, logger, level, ...args)`: assert the `log` action over
the argument array, then make exactly one call to `logger[level]` with the
(possibly redacted) arguments.  The underlying logger is modelled by the
result: `.ok (level, out)` is the single delegated call and its arguments,
`.error e` means the failure propagated before any logger call was made. -/
def policyLogE (p : Policy) (level : String) (args : List JSValue) :
    Except String (String × List JSValue) :=
  match assertAllowedE p "log" (.vArr args) with
  | .error e => .error e
  | .ok _ =>
    let out := if shouldRedactLog p then args.map (fun a => redact a p.redaction) else args
    .ok (level, out)

/-- The `defaultPolicy()`. -/
def defaultPolicy : Policy :=
  { name := "typesecure.default"
    allow := [("log", ["public"]),
              ("analytics", ["public"]),
              ("network", ["public", "token"]),
              ("storage", ["public", "pii", "secret", "token", "credential"])]
    redactBefore := some ["log", "analytics"]
    redaction := ⟨some true, none, none⟩ }

/-- Does the value's `kind` field hold one of the five enumerated
classification strings?  (What the specification's shape invariant asks
for; the runtime check `isClassified` only tests `typeof … === "string"`.) -/
def kindInFive (v : JSValue) : Bool :=
  match kindFieldOf v with
  | some k => fiveKinds.contains k
  | none => false

/-! ### Well-formed structures, paths and string collections -/

/-- Is the value literally the object that `makeClassified` builds from one
of the five kinds and a non-empty string — that is, a classified value as
produced by the sanctioned constructor path? -/
def isCtorClassifiedB (v : JSValue) : Bool :=
  match v with
  | .vObj true true [("kind", .vStr k), ("value", .vStr s)] =>
    fiveKinds.contains k && !(s == "")
  | _ => false

/-- A value is well formed (to the given depth budget) when its containers
are arrays and plain records and every branded object in it is a
constructor-built classified value.  This is the claims' "structure built
from primitives, arrays, plain records, and classified values". -/
def wfB : Nat → JSValue → Bool
  | 0, _ => true
  | b + 1, v =>
    match v with
    | .vArr items => items.all (wfB b)
    | .vObj brand pl fields =>
      pl && (if brand then isCtorClassifiedB v
             else fields.all (fun kv => wfB b kv.2))
    | _ => true

/-- One step into a structure: an array index or a record key. -/
inductive PathStep where
  | idx (i : Nat)
  | fld (k : String)

/-- Follow a path of steps through a value. -/
def getPath : JSValue → List PathStep → Option JSValue
  | v, [] => some v
  | .vArr items, .idx i :: p =>
    (match items.get? i with
     | some w => getPath w p
     | none => none)
  | .vObj _ _ fields, .fld f :: p =>
    (match fieldOf fields f with
     | some w => getPath w p
     | none => none)
  | _, _ => none

/-- Every string occurring as a string node anywhere in the value, to the
given depth budget. -/
def valStrs : Nat → JSValue → List String
  | 0, _ => []
  | b + 1, v =>
    match v with
    | .vStr s => [s]
    | .vArr items => (items.map (valStrs b)).flatten
    | .vObj _ _ fields => (fields.map (fun kv => valStrs b kv.2)).flatten
    | _ => []

/-- The strings occurring outside classified values (classified nodes are
skipped wholesale, so their kind and raw value do not count). -/
def plainStrs : Nat → JSValue → List String
  | 0, _ => []
  | b + 1, v =>
    match v with
    | .vStr s => [s]
    | .vArr items => (items.map (plainStrs b)).flatten
    | .vObj _ _ fields =>
      if isClassified v then []
      else (fields.map (fun kv => plainStrs b kv.2)).flatten
    | _ => []

/-- The raw strings wrapped inside constructor-built classified values. -/
def rawStrs : Nat → JSValue → List String
  | 0, _ => []
  | b + 1, v =>
    match v with
    | .vArr items => (items.map (rawStrs b)).flatten
    | .vObj _ _ fields =>
      if isCtorClassifiedB v then
        (match fieldOf fields "value" with
         | some (.vStr s) => [s]
         | _ => [])
      else (fields.map (fun kv => rawStrs b kv.2)).flatten
    | _ => []

/-- The arguments `redact` ever hands to its placeholder function. -/
def phDomain : List String :=
  ["public", "pii", "secret", "token", "credential", "unknown"]

/-! ### Graph embedding of `redact` for cycle/sharing behavior

The tree embedding cannot express shared references or cycles, which is
exactly what the source's `WeakMap` cache is about.  Here containers live in
a store (heap) addressed by identity, and `walkGF` is the literal recursion
of `redact`'s `walk` over that heap, with the default options, instrumented
with (a) an explicit fuel parameter that models the JS call-stack depth —
each recursive call into a child consumes one unit, siblings share the
parent's remaining fuel, `none` means the recursion would have needed a
deeper stack than the fuel allows — and (b) a trace recording the identity
of every container whose contents are expanded, in order and with
multiplicity, so "re-traversed" is observable. -/

/-- A value in the graph embedding: leaves, plus references into the store.
`gPrim` stands for null/number/boolean/bigint (redactable under a
suspicious key), `gOpaque` for undefined/functions/non-plain objects (always
passed through), `gClassified` for a constructor-built classified value
(an opaque leaf for the traversal). -/
inductive GVal where
  | gPrim
  | gOpaque
  | gStr (s : String)
  | gClassified (kind : String) (raw : String)
  | gRef (id : Nat)

/-- A container node in the store: an array or a plain object. -/
inductive GNode where
  | gArr (items : List GVal)
  | gObjN (fields : List (String × GVal))

/-- A transformed output value.  `oRef id` is the reuse of the memoized
transformed output of object `id` (the source returns the very same output
reference on a second encounter). -/
inductive GOut where
  | oPrim
  | oOpaque
  | oStr (s : String)
  | oArr (items : List GOut)
  | oObjN (fields : List (String × GOut))
  | oRef (id : Nat)

/-- Does `id` name an object node of the store? -/
def isObjNode (store : List (Nat × GNode)) (id : Nat) : Bool :=
  match store.lookup id with
  | some (.gObjN _) => true
  | _ => false

/-- The `walk` of `redact` (default options: `guessByKey = true`, default
placeholder, `maxDepth = 25`) over the heap, with fuel and a traversal
trace.  Branch order follows the source: depth guard, classified value,
suspicious-key primitives, arrays (no identity bookkeeping), plain objects
(`seen` consulted and extended *before* the fields are walked), leaves.
Returns `(transformed value, seen after, trace of expanded container
identities)`. -/
def walkGF (store : List (Nat × GNode)) :
    Nat → GVal → Nat → Option String → List Nat →
      Option (GOut × List Nat × List Nat)
  | 0, _, _, _, _ => none
  | f + 1, v, depth, key, seen =>
    if 25 < depth then some (.oStr (defaultPlaceholder "unknown"), seen, [])
    else
      match v with
      | .gClassified kind _ => some (.oStr (defaultPlaceholder kind), seen, [])
      | .gStr s =>
        if (match key with | some k => suspiciousTest k | none => false) then
          some (.oStr (defaultPlaceholder "unknown"), seen, [])
        else some (.oStr s, seen, [])
      | .gPrim =>
        if (match key with | some k => suspiciousTest k | none => false) then
          some (.oStr (defaultPlaceholder "unknown"), seen, [])
        else some (.oPrim, seen, [])
      | .gOpaque => some (.oOpaque, seen, [])
      | .gRef id =>
        match store.lookup id with
        | none => some (.oOpaque, seen, [])
        | some (.gArr items) =>
          match items.foldl (fun acc it =>
              match acc with
              | none => none
              | some (os, sn, tr) =>
                match walkGF store f it (depth + 1) none sn with
                | none => none
                | some (o, sn2, tr2) => some (os ++ [o], sn2, tr ++ tr2))
            (some ([], seen, [])) with
          | none => none
          | some (os, sn, tr) => some (.oArr os, sn, id :: tr)
        | some (.gObjN fields) =>
          if seen.contains id then some (.oRef id, seen, [])
          else
            match fields.foldl (fun acc kv =>
                match acc with
                | none => none
                | some (os, sn, tr) =>
                  match walkGF store f kv.2 (depth + 1) (some kv.1) sn with
                  | none => none
                  | some (o, sn2, tr2) => some (os ++ [(kv.1, o)], sn2, tr ++ tr2))
              (some ([], seen ++ [id], [])) with
            | none => none
            | some (os, sn, tr) => some (.oObjN os, sn, id :: tr)

/-- The trace of container identities expanded by a default-configured
`redact` call on a heap value, with the fuel the depth limit guarantees
sufficient (proved below): `maxDepth + 2 = 27` stack frames. -/
def redactGTrace (store : List (Nat × GNode)) (v : GVal) : Option (List Nat) :=
  (walkGF store 27 v 0 none []).map (fun r => r.2.2)

/-- The sequential walk of array items (threading `seen`, concatenating
traces), exactly the fold inside `walkGF`. -/
def runItems (store : List (Nat × GNode)) (f depth : Nat) (l : List GVal)
    (init : Option (List GOut × List Nat × List Nat)) :
    Option (List GOut × List Nat × List Nat) :=
  l.foldl (fun acc it =>
    match acc with
    | none => none
    | some (os, sn, tr) =>
      match walkGF store f it (depth + 1) none sn with
      | none => none
      | some (o, sn2, tr2) => some (os ++ [o], sn2, tr ++ tr2)) init

/-- The sequential walk of object fields (with key hints), exactly the fold
inside `walkGF`. -/
def runFields (store : List (Nat × GNode)) (f depth : Nat) (l : List (String × GVal))
    (init : Option (List (String × GOut) × List Nat × List Nat)) :
    Option (List (String × GOut) × List Nat × List Nat) :=
  l.foldl (fun acc kv =>
    match acc with
    | none => none
    | some (os, sn, tr) =>
      match walkGF store f kv.2 (depth + 1) (some kv.1) sn with
      | none => none
      | some (o, sn2, tr2) => some (os ++ [(kv.1, o)], sn2, tr ++ tr2)) init

/-- The invariant threading through a walk: the seen-set only grows, and an
object node is expanded at most once — never if it was already seen, and
once expanded it is in the final seen-set. -/
def SeenInv (store : List (Nat × GNode)) (seen seen' tr : List Nat) : Prop :=
  (∀ id, id ∈ seen → id ∈ seen') ∧
  ∀ id, isObjNode store id = true →
    (id ∈ seen → tr.count id = 0) ∧ tr.count id ≤ 1 ∧ (1 ≤ tr.count id → id ∈ seen')

/-! ## Theorems -/

/-- A non-empty string passes Zod's `min(1)` check. -/
theorem parseNonEmpty_ok (s : String) (hs : s ≠ "") : parseNonEmpty s = .ok s := by
  have hlen : 1 ≤ s.length := by
    rcases s with ⟨data⟩
    cases data with
    | nil => exact absurd rfl hs
    | cons a l => simp [String.length]
  simp [parseNonEmpty, hlen]

/-- On one of the five kinds, `ctorFor` dispatches to the matching
constructor, which brands the validated string. -/
theorem ctorFor_eq_mk (k s : String) (hk : fiveKinds.contains k = true)
    (hp : parseNonEmpty s = .ok s) : ctorFor k s = .ok (makeClassified k s) := by
  simp only [fiveKinds, List.contains_eq_any_beq, List.any_cons, List.any_nil,
    Bool.or_eq_true, beq_iff_eq, Bool.false_eq_true, or_false] at hk
  rcases hk with rfl | rfl | rfl | rfl | rfl <;>
    simp [ctorFor, publicText, piiText, secretText, token, credential, hp,
      Except.map]

/-- Every `makeClassified` output satisfies the runtime brand check. -/
theorem isClassifiedB_mk (k s : String) : isClassified (makeClassified k s) = true := rfl

/-- Applying `reveal` to a `makeClassified` output yields the wrapped value. -/
theorem reveal_mk (k s : String) : reveal (makeClassified k s) = .vStr s := rfl

/-- C2 (amended): `isClassified(value)` is true iff the value carries the
brand marker, has a `kind` field of string type, and has a `value` field
present (the five-kind membership in the original claim is not checked by
the code); it is true for the output of each of the five constructors on
any non-empty string, and false for a hand-built `{kind, value}` object
lacking the brand.  The function is total over all modelled inputs,
including `null` and primitives, matching "never throws". -/
theorem isClassified_characterization :
    (∀ v : JSValue, isClassified v = true ↔
      (hasBrandB v = true ∧ kindIsStringB v = true ∧ hasValueFieldB v = true)) ∧
    (∀ k, fiveKinds.contains k = true → ∀ s, s ≠ "" →
      ∃ c, ctorFor k s = .ok c ∧ isClassified c = true) ∧
    (∀ k s, isClassified (.vObj false true [("kind", .vStr k), ("value", .vStr s)]) = false) := by
  refine ⟨?_, ?_, ?_⟩
  · intro v
    cases v with
    | vObj brand pl fields =>
      simp only [isClassified, hasBrandB, kindIsStringB, hasValueFieldB,
        Bool.and_eq_true]
      tauto
    | vNull => simp [isClassified, hasBrandB]
    | vUndefined => simp [isClassified, hasBrandB]
    | vBool b => simp [isClassified, hasBrandB]
    | vNum n => simp [isClassified, hasBrandB]
    | vBigInt n => simp [isClassified, hasBrandB]
    | vStr s => simp [isClassified, hasBrandB]
    | vFun => simp [isClassified, hasBrandB]
    | vArr items => simp [isClassified, hasBrandB]
  · intro k hk s hs
    exact ⟨makeClassified k s, ctorFor_eq_mk k s hk (parseNonEmpty_ok s hs),
      isClassifiedB_mk k s⟩
  · intro k s
    rfl

/-- C2 witness: the amended characterization applied at concrete inputs. -/
theorem isClassified_characterization_witness :
    (∃ c, ctorFor "secret" "shh" = .ok c ∧ isClassified c = true) ∧
    isClassified (.vObj false true [("kind", .vStr "public"), ("value", .vStr "x")]) = false := by
  refine ⟨isClassified_characterization.2.1 "secret" (by rfl) "shh" (by decide), ?_⟩
  exact isClassified_characterization.2.2 "public" "x"

/-- C2 counterexample: a branded object whose `kind` is the string
`"banana"` — not one of the five enumerated kinds — still satisfies
`isClassified`, so the claimed "iff … one of the five enumerated strings"
fails on the code. -/
theorem isClassified_five_kinds_counterexample :
    ¬ (isClassified (.vObj true true [("kind", .vStr "banana"), ("value", .vStr "x")]) =
       (hasBrandB (.vObj true true [("kind", .vStr "banana"), ("value", .vStr "x")]) &&
        kindInFive (.vObj true true [("kind", .vStr "banana"), ("value", .vStr "x")]) &&
        hasValueFieldB (.vObj true true [("kind", .vStr "banana"), ("value", .vStr "x")]))) := by
  decide

/-- C9: for every non-empty string and each of the five kinds, the kind's
constructor succeeds and `reveal` returns exactly the wrapped string
(`reveal` is the unvalidated property access `value.value`). -/
theorem reveal_constructor_roundtrip (k s : String)
    (hk : fiveKinds.contains k = true) (hs : s ≠ "") :
    ∃ c, ctorFor k s = .ok c ∧ reveal c = .vStr s :=
  ⟨makeClassified k s, ctorFor_eq_mk k s hk (parseNonEmpty_ok s hs), reveal_mk k s⟩

/-- C9 witness: the round-trip at `token("abc.def.ghi")`. -/
theorem reveal_constructor_roundtrip_witness :
    ∃ c, ctorFor "token" "abc.def.ghi" = .ok c ∧ reveal c = .vStr "abc.def.ghi" :=
  reveal_constructor_roundtrip "token" "abc.def.ghi" (by rfl) (by decide)

/-- C4: when the action is absent from `policy.allow`, `decide` never
returns an allow-all result on data in which the deep scan detects a
classified value: the attempted `undefined.has(...)` raises a `TypeError`,
which `assertAllowed` propagates unchanged — the unrecognized action fails
closed rather than allowing. -/
theorem decide_absent_action_fails_closed (p : Policy) (action : String) (data : JSValue)
    (h : p.allow.lookup action = none)
    (h2 : detectedKindsDeep data 25 ≠ []) :
    (∃ e, decideE p action data = .error e ∧ assertAllowedE p action data = .error e) ∧
    ∀ d, decideE p action data ≠ .ok d := by
  have hne : (detectedKindsDeep data 25).isEmpty = false := by
    cases hd : detectedKindsDeep data 25 with
    | nil => exact absurd hd h2
    | cons a l => rfl
  constructor
  · refine ⟨"TypeError: Cannot read properties of undefined (reading has)", ?_, ?_⟩ <;>
      simp [decideE, assertAllowedE, h, hne]
  · intro d
    simp [decideE, h, hne]

/-- C4 witness: a policy with no entry for `log`, on data holding a secret. -/
theorem decide_absent_action_fails_closed_witness :
    (∃ e, decideE ⟨"p0", [("network", ["public"])], none, noOptions⟩ "log"
        (.vObj false true [("s", makeClassified "secret" "x")]) = .error e ∧
      assertAllowedE ⟨"p0", [("network", ["public"])], none, noOptions⟩ "log"
        (.vObj false true [("s", makeClassified "secret" "x")]) = .error e) ∧
    ∀ d, decideE ⟨"p0", [("network", ["public"])], none, noOptions⟩ "log"
        (.vObj false true [("s", makeClassified "secret" "x")]) ≠ .ok d :=
  decide_absent_action_fails_closed _ "log" _ (by rfl) (by decide)

/-! ### The deep scan computes first-discovery-ordered distinct kinds -/

/-- Folding `insertNew` over a concatenation of per-element sequences is the
per-element fold. -/
theorem foldl_insertNew_flatten {α : Type} (f : α → List String) (l : List α)
    (acc : List String) :
    l.foldl (fun a it => (f it).foldl insertNew a) acc =
      ((l.map f).flatten).foldl insertNew acc := by
  induction l generalizing acc with
  | nil => rfl
  | cons x rest ih => simp [List.foldl_append, ih]

/-- The walk `detWalk` is the fold of `insertNew` over the raw discovery sequence. -/
theorem detWalk_eq_foldl (b : Nat) :
    ∀ (v : JSValue) (acc : List String),
      detWalk b v acc = (foundSeq b v).foldl insertNew acc := by
  induction b with
  | zero => intro v acc; rfl
  | succ b ih =>
    intro v acc
    cases v with
    | vArr items =>
      simp only [detWalk, foundSeq, truthyKind, classificationOf, isClassified,
        Bool.false_eq_true, if_false, List.nil_append]
      simp only [ih]
      exact foldl_insertNew_flatten (foundSeq b) items acc
    | vObj br pl fields =>
      by_cases hc : isClassified (.vObj br pl fields) = true
      · rcases hk : kindFieldOf (.vObj br pl fields) with _ | k
        · -- classified demands a string kind field, contradiction
          exfalso
          simp only [isClassified, Bool.and_eq_true] at hc
          simp only [kindFieldOf] at hk
          rcases hc with ⟨⟨-, hstr⟩, -⟩
          cases hf : fieldOf fields "kind" with
          | none => rw [hf] at hstr; simp at hstr
          | some w =>
            rw [hf] at hstr hk
            cases w <;> simp_all
        · by_cases hke : k = ""
          · subst hke
            simp [detWalk, foundSeq, truthyKind, classificationOf, hc, hk]
          · simp [detWalk, foundSeq, truthyKind, classificationOf, hc, hk, hke,
              insertNew]
      · simp only [detWalk, foundSeq, truthyKind, classificationOf, hc,
          if_false, List.nil_append, Bool.not_eq_true] at *
        simp only [hc, if_false, Bool.false_eq_true]
        simp only [ih]
        exact foldl_insertNew_flatten (fun kv => foundSeq b kv.2) fields acc
    | vNull => rfl
    | vUndefined => rfl
    | vBool bb => rfl
    | vNum n => rfl
    | vBigInt n => rfl
    | vStr s => rfl
    | vFun => rfl

/-- The function `dedupAux` only depends on the membership of its seen-set. -/
theorem dedupAux_congr :
    ∀ (l s1 s2 : List String), (∀ x, x ∈ s1 ↔ x ∈ s2) →
      dedupAux l s1 = dedupAux l s2 := by
  intro l
  induction l with
  | nil => intro s1 s2 h; rfl
  | cons k rest ih =>
    intro s1 s2 h
    by_cases hm : k ∈ s2
    · have h1 : k ∈ s1 := (h k).2 hm
      simp [dedupAux, hm, h1, ih s1 s2 h]
    · have h1 : k ∉ s1 := fun hx => hm ((h k).1 hx)
      have hmem : ∀ x, x ∈ k :: s1 ↔ x ∈ k :: s2 := fun x => by simp [h x]
      simp [dedupAux, hm, h1, ih _ _ hmem]

/-- Folding `insertNew` appends exactly the not-yet-seen elements in first
occurrence order. -/
theorem foldl_insertNew_eq_dedupAux :
    ∀ (l acc : List String), l.foldl insertNew acc = acc ++ dedupAux l acc := by
  intro l
  induction l with
  | nil => intro acc; simp [dedupAux]
  | cons k rest ih =>
    intro acc
    by_cases hm : k ∈ acc
    · simp [insertNew, dedupAux, hm, ih]
    · have hsw : dedupAux rest (acc ++ [k]) = dedupAux rest (k :: acc) :=
        dedupAux_congr rest _ _ (fun x => by simp [or_comm])
      simp [insertNew, dedupAux, hm, ih, hsw]

/-- The deep scan returns the distinct kinds in order of first discovery. -/
theorem detectedKindsDeep_eq_dedup (v : JSValue) :
    detectedKindsDeep v 25 = dedupFirst (discoveredKinds v) := by
  rw [detectedKindsDeep, detWalk_eq_foldl, foldl_insertNew_eq_dedupAux]
  rfl

/-- C1: for an action present in `policy.allow`, `decide` returns a
decision whose `detectedKinds` is the list of distinct kinds in order of
first discovery (duplicates collapsed); it is allowed iff every detected
kind is in the action's allow set; the reason is present iff not allowed,
and on denial it is the string naming the policy, the disallowed kinds in
detection order, and the action. -/
theorem decide_characterization (p : Policy) (action : String) (allowSet : List String)
    (h : p.allow.lookup action = some allowSet) (data : JSValue) :
    ∃ d, decideE p action data = .ok d ∧
      d.detectedKinds = some (dedupFirst (discoveredKinds data)) ∧
      (d.allowed = true ↔ ∀ k ∈ dedupFirst (discoveredKinds data), k ∈ allowSet) ∧
      (d.reason.isSome = true ↔ d.allowed = false) ∧
      (d.allowed = false →
        d.reason = some (reasonFor p.name
          ((dedupFirst (discoveredKinds data)).filter (fun k => !(allowSet.contains k)))
          action)) := by
  have hdet := detectedKindsDeep_eq_dedup data
  by_cases hlen :
      0 < ((detectedKindsDeep data 25).filter (fun k => !(allowSet.contains k))).length
  · refine ⟨⟨false,
      some (reasonFor p.name
        ((detectedKindsDeep data 25).filter (fun k => !(allowSet.contains k))) action),
      some (detectedKindsDeep data 25)⟩, ?_, ?_, ?_, ?_, ?_⟩
    · simp only [decideE, h]
      rw [if_pos hlen]
    · simpa using hdet
    · simp only [Bool.false_eq_true, false_iff]
      intro hall
      rcases List.exists_mem_of_length_pos hlen with ⟨k, hk⟩
      have hkd : k ∈ detectedKindsDeep data 25 := (List.mem_filter.1 hk).1
      have hknot : (!(allowSet.contains k)) = true := (List.mem_filter.1 hk).2
      rw [hdet] at hkd
      have : k ∈ allowSet := hall k hkd
      rw [Bool.not_eq_true', ← Bool.not_eq_true] at hknot
      exact hknot (List.elem_iff.2 this)
    · simp
    · intro hfalse
      rw [hdet]
  · refine ⟨⟨true, none, some (detectedKindsDeep data 25)⟩, ?_, ?_, ?_, ?_, ?_⟩
    · simp only [decideE, h]
      rw [if_neg hlen]
    · simpa using hdet
    · simp only [true_iff]
      intro k hk
      rw [← hdet] at hk
      have hnil : ((detectedKindsDeep data 25).filter (fun k => !(allowSet.contains k))) = [] := by
        cases hf : ((detectedKindsDeep data 25).filter (fun k => !(allowSet.contains k))) with
        | nil => rfl
        | cons a l => exact absurd (by rw [hf]; simp) hlen
      have := (List.filter_eq_nil_iff.1 hnil) k hk
      simp only [Bool.not_eq_true', Bool.not_eq_false] at this
      exact List.elem_iff.1 this
    · simp
    · intro hfalse
      cases hfalse

/-- C1 witness: the default policy on `log` with a secret and a public value. -/
theorem decide_characterization_witness :
    ∃ d, decideE defaultPolicy "log"
        (.vObj false true [("s", makeClassified "secret" "x"), ("ok", makeClassified "public" "y")]) =
        .ok d ∧
      d.detectedKinds = some (dedupFirst (discoveredKinds
        (.vObj false true [("s", makeClassified "secret" "x"), ("ok", makeClassified "public" "y")]))) ∧
      (d.allowed = true ↔ ∀ k ∈ dedupFirst (discoveredKinds
        (.vObj false true [("s", makeClassified "secret" "x"), ("ok", makeClassified "public" "y")])),
        k ∈ ["public"]) ∧
      (d.reason.isSome = true ↔ d.allowed = false) ∧
      (d.allowed = false →
        d.reason = some (reasonFor "typesecure.default"
          ((dedupFirst (discoveredKinds
            (.vObj false true [("s", makeClassified "secret" "x"), ("ok", makeClassified "public" "y")]))).filter
            (fun k => !((["public"] : List String).contains k)))
          "log")) :=
  decide_characterization defaultPolicy "log" ["public"] (by rfl) _

/-- A not-allowed result of `decide` always carries a reason. -/
theorem decideE_ok_reason (p : Policy) (action : String) (data : JSValue)
    (d : PolicyDecision) (hd : decideE p action data = .ok d)
    (hfalse : d.allowed = false) : ∃ r, d.reason = some r := by
  simp only [decideE] at hd
  split at hd
  · split at hd
    · cases hd
      exact ⟨_, rfl⟩
    · cases hd
      cases hfalse
  · split at hd
    · cases hd
      cases hfalse
    · cases hd

/-- C7: when `decide` denies the argument array for action `log`,
`policyLog` makes zero logger calls and propagates the denial reason; when
it allows, `policyLog` makes exactly one call to the requested level, with
each argument redacted iff `log` is in the policy's redact-before set. -/
theorem policyLog_characterization (p : Policy) (level : String) (args : List JSValue)
    (d : PolicyDecision) (hd : decideE p "log" (.vArr args) = .ok d) :
    (d.allowed = false → ∃ r, d.reason = some r ∧ policyLogE p level args = .error r) ∧
    (d.allowed = true → policyLogE p level args =
      .ok (level, if shouldRedactLog p = true
                  then args.map (fun a => redact a p.redaction) else args)) := by
  constructor
  · intro hfalse
    rcases decideE_ok_reason p "log" (.vArr args) d hd hfalse with ⟨r, hr⟩
    refine ⟨r, hr, ?_⟩
    simp [policyLogE, assertAllowedE, hd, hfalse, hr]
  · intro htrue
    by_cases hsr : shouldRedactLog p = true
    · simp [policyLogE, assertAllowedE, hd, htrue, hsr]
    · simp [policyLogE, assertAllowedE, hd, htrue, hsr]

/-- C7 witness: under the default policy a `token` argument is denied for
logging (zero calls), while a `public` argument is logged once, redacted
because `log` is in the default redact-before set. -/
theorem policyLog_characterization_witness :
    (∃ r, (⟨false, some (reasonFor "typesecure.default" ["token"] "log"),
            some ["token"]⟩ : PolicyDecision).reason = some r ∧
      policyLogE defaultPolicy "log" [makeClassified "token" "abc"] = .error r) ∧
    policyLogE defaultPolicy "info" [makeClassified "public" "hi"] =
      .ok ("info", [.vStr "[REDACTED:public]"]) := by
  constructor
  · exact (policyLog_characterization defaultPolicy "log" [makeClassified "token" "abc"]
      ⟨false, some (reasonFor "typesecure.default" ["token"] "log"), some ["token"]⟩
      (by rfl)).1 rfl
  · exact (policyLog_characterization defaultPolicy "info" [makeClassified "public" "hi"]
      ⟨true, none, some ["public"]⟩ (by rfl)).2 rfl

/-! ### Suspicious-key behavior of `redact` -/

/-- An unbranded object never passes the classified-value check. -/
theorem truthyKind_unbranded (pl : Bool) (fields : List (String × JSValue)) :
    truthyKind (.vObj false pl fields) = none := rfl

/-- A constructor-built classified value with a non-empty kind passes the
truthiness guard. -/
theorem truthyKind_mk (k s : String) (hk : k ≠ "") :
    truthyKind (makeClassified k s) = some k := by
  simp [truthyKind, classificationOf, isClassified, kindFieldOf, makeClassified, fieldOf, hk]

/-- None of the five kinds is the empty string. -/
theorem five_kinds_ne_empty (k : String) (hk : fiveKinds.contains k = true) : k ≠ "" := by
  simp only [fiveKinds, List.contains_eq_any_beq, List.any_cons, List.any_nil,
    Bool.or_eq_true, beq_iff_eq, Bool.false_eq_true, or_false] at hk
  rcases hk with rfl | rfl | rfl | rfl | rfl <;> decide

/-- Unfolding `redactWalk` on a primitive (or null) reached via a suspicious
key with key-guessing on: immediate `placeholder("unknown")`. -/
theorem redactWalk_susp_prim (ph : String → String) (b : Nat) (k : String) (v : JSValue)
    (hk : suspiciousTest k = true) (hv : suspRedactable v = true) :
    redactWalk true ph (b + 1) v (some k) = (.vStr (ph "unknown"), []) := by
  have ht : truthyKind v = none := by
    cases v <;> first | rfl | simp [suspRedactable] at hv
  cases v <;> simp_all [redactWalk]

/-- Unfolding `redactWalk` on an unbranded plain object: traverse the
fields with their keys as hints, regardless of any suspicious key hint. -/
theorem redactWalk_obj (gk : Bool) (ph : String → String) (b : Nat)
    (fields : List (String × JSValue)) (key : Option String) :
    redactWalk gk ph (b + 1) (.vObj false true fields) key =
      (.vObj false true
        (fields.map (fun kv => (kv.1, (redactWalk gk ph b kv.2 (some kv.1)).1))),
       (fields.map (fun kv => (redactWalk gk ph b kv.2 (some kv.1)).2)).flatten) := by
  simp [redactWalk, truthyKind, classificationOf, isClassified, suspRedactable,
    Function.comp_def]

/-- Unfolding `redactWalk` on an array: traverse the items with no key
hint, regardless of any suspicious key hint. -/
theorem redactWalk_arr (gk : Bool) (ph : String → String) (b : Nat)
    (items : List JSValue) (key : Option String) :
    redactWalk gk ph (b + 1) (.vArr items) key =
      (.vArr (items.map (fun it => (redactWalk gk ph b it none).1)),
       (items.map (fun it => (redactWalk gk ph b it none).2)).flatten) := by
  simp [redactWalk, truthyKind, classificationOf, isClassified, suspRedactable,
    Function.comp_def]

/-- Unfolding `redactWalk` on a constructor-built classified value within
the depth limit: the kind-specific placeholder. -/
theorem redactWalk_mk (gk : Bool) (ph : String → String) (b : Nat)
    (k s : String) (hk : k ≠ "") (key : Option String) :
    redactWalk gk ph (b + 1) (makeClassified k s) key = (.vStr (ph k), [k]) := by
  simp [redactWalk, truthyKind_mk k s hk]

/-- C8: under the default options, a record entry whose key matches the
suspicious-key pattern has a primitive (or null) value replaced by
`placeholder("unknown")`, while a container value is traversed rather than
replaced wholesale, so a nested classified field keeps its exact kind;
concretely `{password: "hunter2"}` redacts to `[REDACTED:unknown]` and
`{normal: "ok"}` is unchanged. -/
theorem redact_suspicious_key (k ks kd s : String) (v : JSValue)
    (hk : suspiciousTest k = true) (hv : suspRedactable v = true)
    (hkd : fiveKinds.contains kd = true) :
    redact (.vObj false true [(k, v)]) noOptions =
      .vObj false true [(k, .vStr "[REDACTED:unknown]")] ∧
    redact (.vObj false true [(k, .vObj false true [(ks, makeClassified kd s)])]) noOptions =
      .vObj false true [(k, .vObj false true [(ks, .vStr (defaultPlaceholder kd))])] ∧
    redact (.vObj false true [(k, .vArr [makeClassified kd s])]) noOptions =
      .vObj false true [(k, .vArr [.vStr (defaultPlaceholder kd)])] ∧
    redact (.vObj false true [("password", .vStr "hunter2")]) noOptions =
      .vObj false true [("password", .vStr "[REDACTED:unknown]")] ∧
    redact (.vObj false true [("normal", .vStr "ok")]) noOptions =
      .vObj false true [("normal", .vStr "ok")] := by
  have hne := five_kinds_ne_empty kd hkd
  refine ⟨?_, ?_, ?_, by rfl, by rfl⟩
  · show (redactWalk true defaultPlaceholder (25 + 1) (.vObj false true [(k, v)]) none).1 = _
    rw [redactWalk_obj]
    simp [redactWalk_susp_prim defaultPlaceholder 24 k v hk hv, defaultPlaceholder]
  · show (redactWalk true defaultPlaceholder (25 + 1)
      (.vObj false true [(k, .vObj false true [(ks, makeClassified kd s)])]) none).1 = _
    rw [redactWalk_obj]
    simp [redactWalk_obj true defaultPlaceholder 24 [(ks, makeClassified kd s)] (some k),
      redactWalk_mk true defaultPlaceholder 23 kd s hne]
  · show (redactWalk true defaultPlaceholder (25 + 1)
      (.vObj false true [(k, .vArr [makeClassified kd s])]) none).1 = _
    rw [redactWalk_obj]
    simp [redactWalk_arr true defaultPlaceholder 24 [makeClassified kd s] (some k),
      redactWalk_mk true defaultPlaceholder 23 kd s hne]

/-- C8 witness: the suspicious-key behavior at `password`/`secretValue`
instances. -/
theorem redact_suspicious_key_witness :
    redact (.vObj false true [("password", .vStr "hunter2")]) noOptions =
      .vObj false true [("password", .vStr "[REDACTED:unknown]")] ∧
    redact (.vObj false true [("auth", .vObj false true [("inner", makeClassified "secret" "x")])])
        noOptions =
      .vObj false true [("auth", .vObj false true [("inner", .vStr (defaultPlaceholder "secret"))])] :=
  ⟨(redact_suspicious_key "password" "inner" "secret" "x" (.vStr "hunter2")
      (by decide) (by rfl) (by rfl)).2.2.2.1,
   (redact_suspicious_key "auth" "inner" "secret" "x" (.vStr "hunter2")
      (by decide) (by rfl) (by rfl)).2.1⟩

/-- C10: the suspicious-key test is an unanchored substring match: any key
whose lower-cased text merely contains one of the vocabulary fragments
triggers it, so a primitive value under such a key is replaced by
`placeholder("unknown")` under default options — concretely for the keys
`author` (contains `auth`) and `passport` (contains `pass`). -/
theorem suspicious_key_substring (k frag : String) (v : JSValue)
    (hf : frag ∈ suspiciousFragments) (hsub : charsHaveSub frag.data (lowerChars k) = true)
    (hv : suspRedactable v = true) :
    suspiciousTest k = true ∧
    redact (.vObj false true [(k, v)]) noOptions =
      .vObj false true [(k, .vStr "[REDACTED:unknown]")] ∧
    redact (.vObj false true [("author", .vStr "Jane")]) noOptions =
      .vObj false true [("author", .vStr "[REDACTED:unknown]")] ∧
    redact (.vObj false true [("passport", .vStr "X12345")]) noOptions =
      .vObj false true [("passport", .vStr "[REDACTED:unknown]")] := by
  have hk : suspiciousTest k = true := by
    unfold suspiciousTest
    rw [List.any_eq_true]
    exact ⟨frag, hf, hsub⟩
  refine ⟨hk, ?_, by rfl, by rfl⟩
  show (redactWalk true defaultPlaceholder (25 + 1) (.vObj false true [(k, v)]) none).1 = _
  rw [redactWalk_obj]
  simp [redactWalk_susp_prim defaultPlaceholder 24 k v hk hv, defaultPlaceholder]

/-- C10 witness: the general substring rule applied at key `author`. -/
theorem suspicious_key_substring_witness :
    suspiciousTest "author" = true ∧
    redact (.vObj false true [("author", .vStr "Jane")]) noOptions =
      .vObj false true [("author", .vStr "[REDACTED:unknown]")] :=
  ⟨(suspicious_key_substring "author" "auth" (.vStr "Jane") (by decide) (by decide) (by rfl)).1,
   (suspicious_key_substring "author" "auth" (.vStr "Jane") (by decide) (by decide) (by rfl)).2.1⟩

/-! ### Agreement of the decide-side scan with the redaction traversal -/

/-- Shape of a constructor-built classified value. -/
theorem isCtorClassifiedB_spec (v : JSValue) (h : isCtorClassifiedB v = true) :
    ∃ k s, v = makeClassified k s ∧ fiveKinds.contains k = true ∧ s ≠ "" := by
  unfold isCtorClassifiedB at h
  split at h
  next k s =>
    rw [Bool.and_eq_true] at h
    refine ⟨k, s, rfl, h.1, ?_⟩
    simpa using h.2
  next => cases h

/-- On well-formed values, the kind trace of the redaction walk is exactly
the raw discovery sequence of the decide-side scan, for any key hint. -/
theorem redactWalk_kinds_eq_foundSeq (b : Nat) :
    ∀ (v : JSValue) (key : Option String), wfB b v = true →
      (redactWalk true defaultPlaceholder b v key).2 = foundSeq b v := by
  induction b with
  | zero => intro v key h; rfl
  | succ b ih =>
    intro v key hwf
    cases v
    case vArr items =>
      rw [redactWalk_arr]
      have hall : ∀ it ∈ items, wfB b it = true := by
        have h2 : items.all (wfB b) = true := by
          simpa only [wfB] using hwf
        exact List.all_eq_true.1 h2
      have hmap : items.map (fun it => (redactWalk true defaultPlaceholder b it none).2) =
          items.map (foundSeq b) :=
        List.map_congr_left (fun it hit => ih it none (hall it hit))
      simp only [foundSeq, truthyKind, classificationOf, isClassified,
        Bool.false_eq_true, if_false, hmap]
      rfl
    case vObj br pl fields =>
      have hpl : pl = true := by
        cases pl
        · simp [wfB] at hwf
        · rfl
      subst hpl
      cases br with
      | true =>
        have hctor : isCtorClassifiedB (.vObj true true fields) = true := by
          simpa only [wfB, Bool.true_and, if_true] using hwf
        rcases isCtorClassifiedB_spec _ hctor with ⟨k, s, heq, hk5, hsne⟩
        rw [heq, redactWalk_mk true defaultPlaceholder b k s (five_kinds_ne_empty k hk5)]
        have ht := truthyKind_mk k s (five_kinds_ne_empty k hk5)
        have hcl : isClassified (makeClassified k s) = true := isClassifiedB_mk k s
        simp only [makeClassified] at ht hcl ⊢
        simp [foundSeq, ht, hcl]
      | false =>
        rw [redactWalk_obj]
        have hall : ∀ kv ∈ fields, wfB b kv.2 = true := by
          have h2 : fields.all (fun kv => wfB b kv.2) = true := by
            simpa only [wfB, Bool.true_and, if_false, Bool.false_eq_true] using hwf
          exact List.all_eq_true.1 h2
        have hmap : fields.map (fun kv => (redactWalk true defaultPlaceholder b kv.2 (some kv.1)).2) =
            fields.map (fun kv => foundSeq b kv.2) :=
          List.map_congr_left (fun kv hkv => ih kv.2 (some kv.1) (hall kv hkv))
        simp only [foundSeq, truthyKind, classificationOf, isClassified,
          Bool.false_eq_true, Bool.false_and, if_false, hmap]
        rfl
    all_goals
      cases key with
      | none => rfl
      | some kk =>
        by_cases hs : suspiciousTest kk = true <;>
          simp [redactWalk, foundSeq, hs, truthyKind, classificationOf,
            isClassified, suspRedactable]

/-- C5 (amended): on structures built from primitives, arrays, plain
records, and constructor-built classified values, the kinds `decide`
detects are exactly the kinds for which the default-configured redaction
walk replaces a node by its kind-specific placeholder (collapsed to first
occurrences): both traversals visit the same nodes with the same default
depth limit of 25 and treat the same nodes as opaque leaves. -/
theorem detect_agrees_with_redact (v : JSValue) (hwf : wfB 26 v = true) :
    detectedKindsDeep v 25 = dedupFirst (redactKindTrace v) ∧
    redactKindTrace v = discoveredKinds v := by
  have hseq : redactKindTrace v = discoveredKinds v :=
    redactWalk_kinds_eq_foundSeq 26 v none hwf
  exact ⟨by rw [detectedKindsDeep_eq_dedup, hseq], hseq⟩

/-- C5 witness: agreement on a nested plain structure holding a secret and
a pii value (the pii value twice). -/
theorem detect_agrees_with_redact_witness :
    detectedKindsDeep
        (.vObj false true [("a", makeClassified "secret" "x"),
                           ("b", .vArr [makeClassified "pii" "y", makeClassified "pii" "z"])]) 25 =
      dedupFirst (redactKindTrace
        (.vObj false true [("a", makeClassified "secret" "x"),
                           ("b", .vArr [makeClassified "pii" "y", makeClassified "pii" "z"])])) ∧
    redactKindTrace
        (.vObj false true [("a", makeClassified "secret" "x"),
                           ("b", .vArr [makeClassified "pii" "y", makeClassified "pii" "z"])]) =
      discoveredKinds
        (.vObj false true [("a", makeClassified "secret" "x"),
                           ("b", .vArr [makeClassified "pii" "y", makeClassified "pii" "z"])]) :=
  detect_agrees_with_redact _ (by rfl)

/-- C5 counterexample: on a non-plain object (prototype not
`Object.prototype`/`null`, e.g. a class instance) holding a classified
field, the decide-side scan traverses its values and detects `secret`,
while `redact` treats the object as an opaque leaf and replaces nothing —
the two traversals do not visit the same nodes on every input. -/
theorem detect_vs_redact_counterexample :
    detectedKindsDeep (.vObj false false [("x", makeClassified "secret" "s")]) 25 = ["secret"] ∧
    redactKindTrace (.vObj false false [("x", makeClassified "secret" "s")]) = [] ∧
    redact (.vObj false false [("x", makeClassified "secret" "s")]) noOptions =
      .vObj false false [("x", makeClassified "secret" "s")] ∧
    detectedKindsDeep (.vObj false false [("x", makeClassified "secret" "s")]) 25 ≠
      dedupFirst (redactKindTrace (.vObj false false [("x", makeClassified "secret" "s")])) :=
  ⟨by rfl, by rfl, by rfl, by decide⟩

/-! ### Redaction completeness and leak freedom -/

/-- Following the empty path yields the value itself. -/
theorem getPath_nil (v : JSValue) : getPath v [] = some v := by
  cases v <;> rfl

/-- A matched field lookup is a member with exactly that key. -/
theorem fieldOf_mem (fields : List (String × JSValue)) (key : String) (w : JSValue)
    (h : fieldOf fields key = some w) : (key, w) ∈ fields := by
  induction fields with
  | nil => cases h
  | cons kv rest ih =>
    rcases kv with ⟨k0, v0⟩
    by_cases hk : k0 = key
    · subst hk
      simp [fieldOf] at h
      simp [h]
    · simp [fieldOf, hk] at h
      exact List.mem_cons_of_mem _ (ih h)

/-- Field lookup commutes with a key-preserving map. -/
theorem fieldOf_map (fields : List (String × JSValue))
    (g : (String × JSValue) → JSValue) (key : String) :
    fieldOf (fields.map (fun kv => (kv.1, g kv))) key =
      (fieldOf fields key).map (fun v => g (key, v)) := by
  induction fields with
  | nil => rfl
  | cons kv rest ih =>
    rcases kv with ⟨k0, v0⟩
    by_cases hk : k0 = key
    · subst hk
      simp [fieldOf]
    · simp [fieldOf, hk, ih]

/-- Well-formedness of array elements. -/
theorem wfB_arr_elem (b : Nat) (items : List JSValue)
    (hwf : wfB (b + 1) (.vArr items) = true) :
    ∀ it ∈ items, wfB b it = true := by
  have h2 : items.all (wfB b) = true := by simpa only [wfB] using hwf
  exact List.all_eq_true.1 h2

/-- Well-formedness of unbranded plain-object fields. -/
theorem wfB_obj_field (b : Nat) (fields : List (String × JSValue))
    (hwf : wfB (b + 1) (.vObj false true fields) = true) :
    ∀ kv ∈ fields, wfB b kv.2 = true := by
  have h2 : fields.all (fun kv => wfB b kv.2) = true := by
    simpa only [wfB, Bool.true_and, if_false, Bool.false_eq_true] using hwf
  exact List.all_eq_true.1 h2

/-- A well-formed object is plain, and branded only as a constructor-built
classified value. -/
theorem wfB_obj_shape (b : Nat) (br pl : Bool) (fields : List (String × JSValue))
    (hwf : wfB (b + 1) (.vObj br pl fields) = true) :
    pl = true ∧ (br = true → isCtorClassifiedB (.vObj br pl fields) = true) := by
  cases pl
  · simp [wfB] at hwf
  · refine ⟨rfl, ?_⟩
    intro hbr
    subst hbr
    simpa only [wfB, Bool.true_and, if_true] using hwf

/-- Any classified node of a well-formed value within the depth limit is
replaced by the placeholder of its exact kind at the same path in the
redacted output. -/
theorem getPath_redactWalk (gk : Bool) (ph : String → String) :
    ∀ (p : List PathStep) (b : Nat) (v : JSValue) (key : Option String) (w : JSValue),
      wfB (b + 1) v = true → getPath v p = some w → isClassified w = true →
      p.length ≤ b →
      ∃ k s, w = makeClassified k s ∧ fiveKinds.contains k = true ∧
        getPath ((redactWalk gk ph (b + 1) v key).1) p = some (.vStr (ph k)) := by
  intro p
  induction p with
  | nil =>
    intro b v key w hwf hget hcl hlen
    rw [getPath_nil] at hget
    cases hget
    cases v with
    | vObj br pl fields =>
      have hbr : br = true := by
        cases br
        · simp [isClassified] at hcl
        · rfl
      subst hbr
      rcases wfB_obj_shape b true pl fields hwf with ⟨hpl, hctor⟩
      subst hpl
      rcases isCtorClassifiedB_spec _ (hctor rfl) with ⟨k, s, heq, hk5, hsne⟩
      refine ⟨k, s, heq, hk5, ?_⟩
      rw [heq, redactWalk_mk gk ph b k s (five_kinds_ne_empty k hk5)]
      rfl
    | vNull => cases hcl
    | vUndefined => cases hcl
    | vBool bb => cases hcl
    | vNum n => cases hcl
    | vBigInt n => cases hcl
    | vStr s => cases hcl
    | vFun => cases hcl
    | vArr items => cases hcl
  | cons step p ih =>
    intro b v key w hwf hget hcl hlen
    cases b with
    | zero => simp at hlen
    | succ b =>
      cases v with
      | vArr items =>
        cases step with
        | idx i =>
          simp only [getPath] at hget
          cases hitem : items.get? i with
          | none => rw [hitem] at hget; cases hget
          | some child =>
            rw [hitem] at hget
            have hwfc : wfB (b + 1) child = true :=
              wfB_arr_elem (b + 1) items hwf child (List.get?_mem hitem)
            have hlen2 : p.length ≤ b := by
              have := hlen
              simp only [List.length_cons] at this
              omega
            rcases ih b child none w hwfc hget hcl hlen2
              with ⟨k, s, heq, hk5, hout⟩
            refine ⟨k, s, heq, hk5, ?_⟩
            rw [redactWalk_arr]
            simp only [getPath, List.get?_map, hitem, Option.map_some']
            exact hout
        | fld f => cases hget
      | vObj br pl fields =>
        cases step with
        | idx i => cases hget
        | fld f =>
          simp only [getPath] at hget
          cases hf : fieldOf fields f with
          | none => rw [hf] at hget; cases hget
          | some child =>
            rw [hf] at hget
            rcases wfB_obj_shape (b + 1) br pl fields hwf with ⟨hpl, hctor⟩
            subst hpl
            cases br with
            | true =>
              rcases isCtorClassifiedB_spec _ (hctor rfl) with ⟨k, s, heq, hk5, hsne⟩
              -- the fields of a classified value are strings, so the path
              -- cannot reach another classified node below it
              exfalso
              have : fields = [("kind", .vStr k), ("value", .vStr s)] := by
                have := congrArg (fun x => match x with
                  | JSValue.vObj _ _ fs => fs
                  | _ => []) heq
                simpa [makeClassified] using this
              subst this
              simp only [fieldOf] at hf
              by_cases h1 : "kind" = f
              · rw [if_pos h1] at hf
                cases hf
                cases p with
                | nil => cases hget; cases hcl
                | cons a q => cases hget
              · rw [if_neg h1] at hf
                by_cases h2 : "value" = f
                · rw [if_pos h2] at hf
                  cases hf
                  cases p with
                  | nil => cases hget; cases hcl
                  | cons a q => cases hget
                · rw [if_neg h2] at hf
                  cases hf
            | false =>
              have hwfc : wfB (b + 1) child = true :=
                wfB_obj_field (b + 1) fields hwf (f, child) (fieldOf_mem fields f child hf)
              have hlen2 : p.length ≤ b := by
                have := hlen
                simp only [List.length_cons] at this
                omega
              rcases ih b child (some f) w hwfc hget hcl hlen2
                with ⟨k, s, heq, hk5, hout⟩
              refine ⟨k, s, heq, hk5, ?_⟩
              rw [redactWalk_obj]
              simp only [getPath]
              rw [fieldOf_map fields
                (fun kv => (redactWalk gk ph (b + 1) kv.2 (some kv.1)).1) f, hf]
              simp only [Option.map_some']
              exact hout
      | vNull => cases hget
      | vUndefined => cases hget
      | vBool bb => cases hget
      | vNum n => cases hget
      | vBigInt n => cases hget
      | vStr s => cases hget
      | vFun => cases hget

/-- The five kinds are placeholder-domain members. -/
theorem five_mem_phDomain (k : String) (hk : fiveKinds.contains k = true) :
    k ∈ phDomain := by
  simp only [fiveKinds, List.contains_eq_any_beq, List.any_cons, List.any_nil,
    Bool.or_eq_true, beq_iff_eq, Bool.false_eq_true, or_false] at hk
  rcases hk with rfl | rfl | rfl | rfl | rfl <;> decide

/-- A non-classified value passes the truthiness guard vacuously. -/
theorem truthyKind_eq_none (v : JSValue) (h : isClassified v = false) :
    truthyKind v = none := by
  simp [truthyKind, classificationOf, h]

/-- An unclassified leaf (neither array nor object) is either passed through
unchanged or replaced by the `"unknown"` placeholder (suspicious key). -/
theorem redactWalk_leaf (gk : Bool) (ph : String → String) (b : Nat) (key : Option String)
    (v : JSValue) (hcl : isClassified v = false)
    (harr : ∀ items, v ≠ .vArr items)
    (hobj : ∀ x y z, v ≠ .vObj x y z) :
    (redactWalk gk ph (b + 1) v key).1 = v ∨
    (redactWalk gk ph (b + 1) v key).1 = .vStr (ph "unknown") := by
  simp only [redactWalk, truthyKind_eq_none v hcl]
  split
  · exact Or.inr rfl
  · cases v with
    | vArr items => exact absurd rfl (harr items)
    | vObj x y z => exact absurd rfl (hobj x y z)
    | vNull => exact Or.inl rfl
    | vUndefined => exact Or.inl rfl
    | vBool bb => exact Or.inl rfl
    | vNum n => exact Or.inl rfl
    | vBigInt n => exact Or.inl rfl
    | vStr s => exact Or.inl rfl
    | vFun => exact Or.inl rfl

/-- Every string in the redacted output of a well-formed value is either a
placeholder applied to a domain kind, or a string already occurring outside
classified values in the input. -/
theorem valStrs_redactWalk (gk : Bool) (ph : String → String) (b : Nat) :
    ∀ (v : JSValue) (key : Option String) (x : String), wfB b v = true →
      x ∈ valStrs b ((redactWalk gk ph b v key).1) →
      (∃ d ∈ phDomain, ph d = x) ∨ x ∈ plainStrs b v := by
  induction b with
  | zero => intro v key x hwf hx; cases hx
  | succ b ih =>
    intro v key x hwf hx
    cases v
    case vArr items =>
      rw [redactWalk_arr] at hx
      simp only [valStrs, List.map_map, List.mem_flatten, List.mem_map] at hx
      rcases hx with ⟨strs, ⟨it, hit, rfl⟩, hxs⟩
      have hwfc := wfB_arr_elem b items hwf it hit
      rcases ih it none x hwfc hxs with hl | hr
      · exact Or.inl hl
      · right
        simp only [plainStrs, List.mem_flatten, List.mem_map]
        exact ⟨plainStrs b it, ⟨it, hit, rfl⟩, hr⟩
    case vObj br pl fields =>
      rcases wfB_obj_shape b br pl fields hwf with ⟨hpl, hctor⟩
      subst hpl
      cases br with
      | true =>
        rcases isCtorClassifiedB_spec _ (hctor rfl) with ⟨k, s, heq, hk5, hsne⟩
        rw [heq, redactWalk_mk gk ph b k s (five_kinds_ne_empty k hk5)] at hx
        simp only [valStrs, List.mem_singleton] at hx
        exact Or.inl ⟨k, five_mem_phDomain k hk5, hx.symm⟩
      | false =>
        rw [redactWalk_obj] at hx
        simp only [valStrs, List.map_map, List.mem_flatten, List.mem_map] at hx
        rcases hx with ⟨strs, ⟨kv, hkv, rfl⟩, hxs⟩
        have hwfc := wfB_obj_field b fields hwf kv hkv
        rcases ih kv.2 (some kv.1) x hwfc hxs with hl | hr
        · exact Or.inl hl
        · right
          simp only [plainStrs, isClassified, Bool.false_and, Bool.false_eq_true,
            if_false, List.mem_flatten, List.mem_map]
          exact ⟨plainStrs b kv.2, ⟨kv, hkv, rfl⟩, hr⟩
    case vNull =>
      rcases redactWalk_leaf gk ph b key JSValue.vNull rfl
          (fun _ h => JSValue.noConfusion h) (fun _ _ _ h => JSValue.noConfusion h)
        with hout | hout <;> rw [hout] at hx
      · simp [valStrs] at hx
      · simp only [valStrs, List.mem_singleton] at hx
        exact Or.inl ⟨"unknown", by decide, hx.symm⟩
    case vUndefined =>
      rcases redactWalk_leaf gk ph b key JSValue.vUndefined rfl
          (fun _ h => JSValue.noConfusion h) (fun _ _ _ h => JSValue.noConfusion h)
        with hout | hout <;> rw [hout] at hx
      · simp [valStrs] at hx
      · simp only [valStrs, List.mem_singleton] at hx
        exact Or.inl ⟨"unknown", by decide, hx.symm⟩
    case vBool bb =>
      rcases redactWalk_leaf gk ph b key (JSValue.vBool bb) rfl
          (fun _ h => JSValue.noConfusion h) (fun _ _ _ h => JSValue.noConfusion h)
        with hout | hout <;> rw [hout] at hx
      · simp [valStrs] at hx
      · simp only [valStrs, List.mem_singleton] at hx
        exact Or.inl ⟨"unknown", by decide, hx.symm⟩
    case vNum n =>
      rcases redactWalk_leaf gk ph b key (JSValue.vNum n) rfl
          (fun _ h => JSValue.noConfusion h) (fun _ _ _ h => JSValue.noConfusion h)
        with hout | hout <;> rw [hout] at hx
      · simp [valStrs] at hx
      · simp only [valStrs, List.mem_singleton] at hx
        exact Or.inl ⟨"unknown", by decide, hx.symm⟩
    case vBigInt n =>
      rcases redactWalk_leaf gk ph b key (JSValue.vBigInt n) rfl
          (fun _ h => JSValue.noConfusion h) (fun _ _ _ h => JSValue.noConfusion h)
        with hout | hout <;> rw [hout] at hx
      · simp [valStrs] at hx
      · simp only [valStrs, List.mem_singleton] at hx
        exact Or.inl ⟨"unknown", by decide, hx.symm⟩
    case vStr s =>
      rcases redactWalk_leaf gk ph b key (JSValue.vStr s) rfl
          (fun _ h => JSValue.noConfusion h) (fun _ _ _ h => JSValue.noConfusion h)
        with hout | hout <;> rw [hout] at hx
      · simp only [valStrs, List.mem_singleton] at hx
        subst hx
        right
        simp [plainStrs]
      · simp only [valStrs, List.mem_singleton] at hx
        exact Or.inl ⟨"unknown", by decide, hx.symm⟩
    case vFun =>
      rcases redactWalk_leaf gk ph b key JSValue.vFun rfl
          (fun _ h => JSValue.noConfusion h) (fun _ _ _ h => JSValue.noConfusion h)
        with hout | hout <;> rw [hout] at hx
      · simp [valStrs] at hx
      · simp only [valStrs, List.mem_singleton] at hx
        exact Or.inl ⟨"unknown", by decide, hx.symm⟩

/-- C3: on structures built from primitives, arrays, plain records, and
constructor-built classified values, with every classified value nested at
depth at most `maxDepth`, `redact` replaces each classified value with the
placeholder of its exact kind at the same position, and the redacted output
contains no occurrence of a raw string wrapped inside a classified value
(provided that string does not also occur as plain data and is not itself a
placeholder string). -/
theorem redact_completeness (opts : RedactOptions) (v : JSValue)
    (hwf : wfB ((opts.maxDepth.getD 25) + 1) v = true) :
    (∀ (p : List PathStep) (w : JSValue),
      getPath v p = some w → isClassified w = true →
      p.length ≤ opts.maxDepth.getD 25 →
      ∃ k s, w = makeClassified k s ∧ fiveKinds.contains k = true ∧
        getPath (redact v opts) p =
          some (.vStr ((opts.placeholder.getD defaultPlaceholder) k))) ∧
    (∀ s, s ∈ rawStrs ((opts.maxDepth.getD 25) + 1) v →
      s ∉ plainStrs ((opts.maxDepth.getD 25) + 1) v →
      (∀ d ∈ phDomain, (opts.placeholder.getD defaultPlaceholder) d ≠ s) →
      s ∉ valStrs ((opts.maxDepth.getD 25) + 1) (redact v opts)) := by
  constructor
  · intro p w hget hcl hlen
    exact getPath_redactWalk (opts.guessByKey.getD true)
      (opts.placeholder.getD defaultPlaceholder) p (opts.maxDepth.getD 25) v none w
      hwf hget hcl hlen
  · intro s hraw hplain hph hmem
    rcases valStrs_redactWalk (opts.guessByKey.getD true)
        (opts.placeholder.getD defaultPlaceholder) ((opts.maxDepth.getD 25) + 1)
        v none s hwf hmem with ⟨d, hd, hds⟩ | hin
    · exact hph d hd hds
    · exact hplain hin

/-- C3 witness: a nested structure holding a pii value two levels deep and
a secret inside an array, under default options: the classified nodes map
to their exact-kind placeholders and the raw string `dont-leak` is absent
from the output. -/
theorem redact_completeness_witness :
    (∃ k s, makeClassified "pii" "user@example.com" = makeClassified k s ∧
      fiveKinds.contains k = true ∧
      getPath (redact (.vObj false true
          [("user", .vObj false true [("email", makeClassified "pii" "user@example.com")]),
           ("arr", .vArr [makeClassified "secret" "dont-leak"]),
           ("note", .vStr "hello")]) noOptions)
        [PathStep.fld "user", PathStep.fld "email"] =
        some (.vStr (defaultPlaceholder k))) ∧
    "dont-leak" ∉ valStrs 26 (redact (.vObj false true
          [("user", .vObj false true [("email", makeClassified "pii" "user@example.com")]),
           ("arr", .vArr [makeClassified "secret" "dont-leak"]),
           ("note", .vStr "hello")]) noOptions) := by
  constructor
  · exact (redact_completeness noOptions _ (by rfl)).1
      [PathStep.fld "user", PathStep.fld "email"]
      (makeClassified "pii" "user@example.com") (by rfl) (by rfl) (by decide)
  · exact (redact_completeness noOptions _ (by rfl)).2 "dont-leak"
      (by decide) (by decide) (by decide)

/-- Unfolding `walkGF` on an array reference, within depth, via `runItems`. -/
theorem walkGF_arr_eq (store : List (Nat × GNode)) (f id depth : Nat)
    (key : Option String) (seen : List Nat) (items : List GVal)
    (hdep : ¬ 25 < depth) (hlk : store.lookup id = some (.gArr items)) :
    walkGF store (f + 1) (.gRef id) depth key seen =
      (match runItems store f depth items (some ([], seen, [])) with
       | none => none
       | some (os, sn, tr) => some (.oArr os, sn, id :: tr)) := by
  simp only [walkGF, if_neg hdep, hlk]
  rfl

/-- Unfolding `walkGF` on a first-encountered object reference, within depth, via
`runFields` (the identity is added to `seen` before the fields walk). -/
theorem walkGF_obj_eq (store : List (Nat × GNode)) (f id depth : Nat)
    (key : Option String) (seen : List Nat) (fields : List (String × GVal))
    (hdep : ¬ 25 < depth) (hlk : store.lookup id = some (.gObjN fields))
    (hseen : seen.contains id = false) :
    walkGF store (f + 1) (.gRef id) depth key seen =
      (match runFields store f depth fields (some ([], seen ++ [id], [])) with
       | none => none
       | some (os, sn, tr) => some (.oObjN os, sn, id :: tr)) := by
  simp only [walkGF, if_neg hdep, hlk, hseen]
  rfl

/-- Unfolding `walkGF` on a re-encountered object reference: the memoized output
reference is reused, nothing is traversed, nothing is traced. -/
theorem walkGF_obj_seen (store : List (Nat × GNode)) (f id depth : Nat)
    (key : Option String) (seen : List Nat) (fields : List (String × GVal))
    (hdep : ¬ 25 < depth) (hlk : store.lookup id = some (.gObjN fields))
    (hseen : seen.contains id = true) :
    walkGF store (f + 1) (.gRef id) depth key seen = some (.oRef id, seen, []) := by
  simp only [walkGF, if_neg hdep, hlk, hseen]
  rfl

/-- A failed prefix poisons the rest of an item walk. -/
theorem runItems_none (store : List (Nat × GNode)) (f depth : Nat) :
    ∀ l : List GVal, runItems store f depth l none = none := by
  intro l
  induction l with
  | nil => rfl
  | cons it rest ih => simpa [runItems, List.foldl_cons] using ih

/-- A failed prefix poisons the rest of a field walk. -/
theorem runFields_none (store : List (Nat × GNode)) (f depth : Nat) :
    ∀ l : List (String × GVal), runFields store f depth l none = none := by
  intro l
  induction l with
  | nil => rfl
  | cons kv rest ih => simpa [runFields, List.foldl_cons] using ih

/-- One step of an item walk. -/
theorem runItems_cons (store : List (Nat × GNode)) (f depth : Nat) (it : GVal)
    (rest : List GVal) (os : List GOut) (sn tr : List Nat) :
    runItems store f depth (it :: rest) (some (os, sn, tr)) =
      runItems store f depth rest
        (match walkGF store f it (depth + 1) none sn with
         | none => none
         | some (o, sn2, tr2) => some (os ++ [o], sn2, tr ++ tr2)) := rfl

/-- One step of a field walk. -/
theorem runFields_cons (store : List (Nat × GNode)) (f depth : Nat) (kv : String × GVal)
    (rest : List (String × GVal)) (os : List (String × GOut)) (sn tr : List Nat) :
    runFields store f depth (kv :: rest) (some (os, sn, tr)) =
      runFields store f depth rest
        (match walkGF store f kv.2 (depth + 1) (some kv.1) sn with
         | none => none
         | some (o, sn2, tr2) => some (os ++ [(kv.1, o)], sn2, tr ++ tr2)) := rfl

/-- Item walks only depend on the child walk's behavior. -/
theorem runItems_congr (store : List (Nat × GNode)) (f1 f2 depth : Nat)
    (h : ∀ it sn, walkGF store f1 it (depth + 1) none sn =
      walkGF store f2 it (depth + 1) none sn) :
    ∀ (l : List GVal) init, runItems store f1 depth l init = runItems store f2 depth l init := by
  intro l
  induction l with
  | nil => intro init; rfl
  | cons it rest ih =>
    intro init
    cases init with
    | none => rw [runItems_none, runItems_none]
    | some acc =>
      rcases acc with ⟨os, sn, tr⟩
      rw [runItems_cons, runItems_cons, h it sn]
      exact ih _

/-- Field walks only depend on the child walk's behavior. -/
theorem runFields_congr (store : List (Nat × GNode)) (f1 f2 depth : Nat)
    (h : ∀ k it sn, walkGF store f1 it (depth + 1) (some k) sn =
      walkGF store f2 it (depth + 1) (some k) sn) :
    ∀ (l : List (String × GVal)) init,
      runFields store f1 depth l init = runFields store f2 depth l init := by
  intro l
  induction l with
  | nil => intro init; rfl
  | cons kv rest ih =>
    intro init
    cases init with
    | none => rw [runFields_none, runFields_none]
    | some acc =>
      rcases acc with ⟨os, sn, tr⟩
      rw [runFields_cons, runFields_cons, h kv.1 kv.2 sn]
      exact ih _

/-- One extra unit of fuel is irrelevant once the fuel covers the worst
stack depth the guard allows (`27 - depth` frames). -/
theorem walkGF_fuel_step (store : List (Nat × GNode)) :
    ∀ (f : Nat) (v : GVal) (depth : Nat) (key : Option String) (seen : List Nat),
      depth ≤ 26 → 27 - depth ≤ f →
      walkGF store (f + 1) v depth key seen = walkGF store f v depth key seen := by
  intro f
  induction f with
  | zero =>
    intro v depth key seen hd hf
    omega
  | succ f ih =>
    intro v depth key seen hd hf
    by_cases hdep : 25 < depth
    · simp [walkGF, hdep]
    · cases v with
      | gRef id =>
        cases hlk : store.lookup id with
        | none => simp [walkGF, hdep, hlk]
        | some node =>
          cases node with
          | gArr items =>
            rw [walkGF_arr_eq store (f + 1) id depth key seen items hdep hlk,
              walkGF_arr_eq store f id depth key seen items hdep hlk,
              runItems_congr store (f + 1) f depth
                (fun it sn => ih it (depth + 1) none sn (by omega) (by omega)) items]
          | gObjN fields =>
            cases hseen : seen.contains id with
            | true =>
              rw [walkGF_obj_seen store (f + 1) id depth key seen fields hdep hlk hseen,
                walkGF_obj_seen store f id depth key seen fields hdep hlk hseen]
            | false =>
              rw [walkGF_obj_eq store (f + 1) id depth key seen fields hdep hlk hseen,
                walkGF_obj_eq store f id depth key seen fields hdep hlk hseen,
                runFields_congr store (f + 1) f depth
                  (fun k it sn => ih it (depth + 1) (some k) sn (by omega) (by omega)) fields]
      | gPrim => simp [walkGF, hdep]
      | gOpaque => simp [walkGF, hdep]
      | gStr s => simp [walkGF, hdep]
      | gClassified kind raw => simp [walkGF, hdep]

/-- Fuel beyond the guaranteed bound never changes the result. -/
theorem walkGF_fuel_stable (store : List (Nat × GNode)) (v : GVal) (depth : Nat)
    (key : Option String) (seen : List Nat) (hd : depth ≤ 26) :
    ∀ f, 27 - depth ≤ f →
      walkGF store f v depth key seen = walkGF store (27 - depth) v depth key seen := by
  intro f
  induction f with
  | zero => intro hf; omega
  | succ f ih =>
    intro hf
    by_cases heq : 27 - depth = f + 1
    · rw [heq]
    · have hlt : 27 - depth ≤ f := by omega
      rw [walkGF_fuel_step store f v depth key seen hd hlt]
      exact ih hlt

/-- Item walks succeed when every child walk succeeds. -/
theorem runItems_total (store : List (Nat × GNode)) (f depth : Nat)
    (h : ∀ it sn, (walkGF store f it (depth + 1) none sn).isSome = true) :
    ∀ (l : List GVal) os sn tr,
      (runItems store f depth l (some (os, sn, tr))).isSome = true := by
  intro l
  induction l with
  | nil => intro os sn tr; rfl
  | cons it rest ih =>
    intro os sn tr
    rw [runItems_cons]
    cases hw : walkGF store f it (depth + 1) none sn with
    | none =>
      have := h it sn
      rw [hw] at this
      cases this
    | some r =>
      rcases r with ⟨o, sn2, tr2⟩
      exact ih (os ++ [o]) sn2 (tr ++ tr2)

/-- Field walks succeed when every child walk succeeds. -/
theorem runFields_total (store : List (Nat × GNode)) (f depth : Nat)
    (h : ∀ k it sn, (walkGF store f it (depth + 1) (some k) sn).isSome = true) :
    ∀ (l : List (String × GVal)) os sn tr,
      (runFields store f depth l (some (os, sn, tr))).isSome = true := by
  intro l
  induction l with
  | nil => intro os sn tr; rfl
  | cons kv rest ih =>
    intro os sn tr
    rw [runFields_cons]
    cases hw : walkGF store f kv.2 (depth + 1) (some kv.1) sn with
    | none =>
      have := h kv.1 kv.2 sn
      rw [hw] at this
      cases this
    | some r =>
      rcases r with ⟨o, sn2, tr2⟩
      exact ih (os ++ [(kv.1, o)]) sn2 (tr ++ tr2)

/-- With fuel covering the worst stack depth the guard allows, the walk
always produces a result: the recursion terminates within a bounded stack
on every heap, including cyclic ones. -/
theorem walkGF_total (store : List (Nat × GNode)) :
    ∀ (f : Nat) (v : GVal) (depth : Nat) (key : Option String) (seen : List Nat),
      depth ≤ 26 → 27 - depth ≤ f →
      (walkGF store f v depth key seen).isSome = true := by
  intro f
  induction f with
  | zero =>
    intro v depth key seen hd hf
    omega
  | succ f ih =>
    intro v depth key seen hd hf
    by_cases hdep : 25 < depth
    · simp [walkGF, hdep]
    · cases v with
      | gRef id =>
        cases hlk : store.lookup id with
        | none => simp [walkGF, hdep, hlk]
        | some node =>
          cases node with
          | gArr items =>
            rw [walkGF_arr_eq store f id depth key seen items hdep hlk]
            have htot := runItems_total store f depth
              (fun it sn => ih it (depth + 1) none sn (by omega) (by omega))
              items [] seen []
            cases hr : runItems store f depth items (some ([], seen, [])) with
            | none => rw [hr] at htot; cases htot
            | some r =>
              rcases r with ⟨os, sn, tr⟩
              rfl
          | gObjN fields =>
            cases hseen : seen.contains id with
            | true =>
              rw [walkGF_obj_seen store f id depth key seen fields hdep hlk hseen]
              rfl
            | false =>
              rw [walkGF_obj_eq store f id depth key seen fields hdep hlk hseen]
              have htot := runFields_total store f depth
                (fun k it sn => ih it (depth + 1) (some k) sn (by omega) (by omega))
                fields [] (seen ++ [id]) []
              cases hr : runFields store f depth fields (some ([], seen ++ [id], [])) with
              | none => rw [hr] at htot; cases htot
              | some r =>
                rcases r with ⟨os, sn, tr⟩
                rfl
      | gPrim => simp [walkGF, hdep]; split <;> simp
      | gOpaque => simp [walkGF, hdep]
      | gStr s => simp [walkGF, hdep]; split <;> simp
      | gClassified kind raw => simp [walkGF, hdep]

/-- An empty trace with an unchanged seen-set satisfies the invariant. -/
theorem SeenInv_refl (store : List (Nat × GNode)) (seen : List Nat) :
    SeenInv store seen seen [] := by
  refine ⟨fun id h => h, fun id _ => ?_⟩
  simp

/-- The invariant composes over sequential walks. -/
theorem SeenInv_comp (store : List (Nat × GNode)) (s1 s2 s3 tr1 tr2 : List Nat)
    (h1 : SeenInv store s1 s2 tr1) (h2 : SeenInv store s2 s3 tr2) :
    SeenInv store s1 s3 (tr1 ++ tr2) := by
  obtain ⟨m1, o1⟩ := h1
  obtain ⟨m2, o2⟩ := h2
  refine ⟨fun id h => m2 id (m1 id h), fun id hobj => ?_⟩
  obtain ⟨a1, b1, c1⟩ := o1 id hobj
  obtain ⟨a2, b2, c2⟩ := o2 id hobj
  rw [List.count_append]
  refine ⟨?_, ?_, ?_⟩
  · intro hs1
    rw [a1 hs1, a2 (m1 id hs1)]
  · by_cases hc : 1 ≤ tr1.count id
    · have := a2 (c1 hc)
      omega
    · omega
  · intro hge
    by_cases hc : 1 ≤ tr2.count id
    · exact c2 hc
    · have h1c : 1 ≤ tr1.count id := by omega
      exact m2 id (c1 h1c)

/-- The invariant lifts through an item walk. -/
theorem runItems_inv (store : List (Nat × GNode)) (f depth : Nat)
    (hstep : ∀ it sn out sn' tr,
      walkGF store f it (depth + 1) none sn = some (out, sn', tr) →
      SeenInv store sn sn' tr) :
    ∀ (l : List GVal) os0 sn0 tr0 os sn tr,
      runItems store f depth l (some (os0, sn0, tr0)) = some (os, sn, tr) →
      ∃ trNew, tr = tr0 ++ trNew ∧ SeenInv store sn0 sn trNew := by
  intro l
  induction l with
  | nil =>
    intro os0 sn0 tr0 os sn tr h
    cases h
    exact ⟨[], by simp, SeenInv_refl store sn0⟩
  | cons it rest ih =>
    intro os0 sn0 tr0 os sn tr h
    rw [runItems_cons] at h
    cases hw : walkGF store f it (depth + 1) none sn0 with
    | none =>
      rw [hw, runItems_none] at h
      cases h
    | some r =>
      rcases r with ⟨o, sn1, tr1⟩
      rw [hw] at h
      rcases ih (os0 ++ [o]) sn1 (tr0 ++ tr1) os sn tr h with ⟨trNew2, htr, hinv2⟩
      exact ⟨tr1 ++ trNew2, by rw [htr, List.append_assoc],
        SeenInv_comp store sn0 sn1 sn tr1 trNew2 (hstep it sn0 o sn1 tr1 hw) hinv2⟩

/-- The invariant lifts through a field walk. -/
theorem runFields_inv (store : List (Nat × GNode)) (f depth : Nat)
    (hstep : ∀ k it sn out sn' tr,
      walkGF store f it (depth + 1) (some k) sn = some (out, sn', tr) →
      SeenInv store sn sn' tr) :
    ∀ (l : List (String × GVal)) os0 sn0 tr0 os sn tr,
      runFields store f depth l (some (os0, sn0, tr0)) = some (os, sn, tr) →
      ∃ trNew, tr = tr0 ++ trNew ∧ SeenInv store sn0 sn trNew := by
  intro l
  induction l with
  | nil =>
    intro os0 sn0 tr0 os sn tr h
    cases h
    exact ⟨[], by simp, SeenInv_refl store sn0⟩
  | cons kv rest ih =>
    intro os0 sn0 tr0 os sn tr h
    rw [runFields_cons] at h
    cases hw : walkGF store f kv.2 (depth + 1) (some kv.1) sn0 with
    | none =>
      rw [hw, runFields_none] at h
      cases h
    | some r =>
      rcases r with ⟨o, sn1, tr1⟩
      rw [hw] at h
      rcases ih (os0 ++ [(kv.1, o)]) sn1 (tr0 ++ tr1) os sn tr h with ⟨trNew2, htr, hinv2⟩
      exact ⟨tr1 ++ trNew2, by rw [htr, List.append_assoc],
        SeenInv_comp store sn0 sn1 sn tr1 trNew2 (hstep kv.1 kv.2 sn0 o sn1 tr1 hw) hinv2⟩

/-- Every successful walk satisfies the invariant. -/
theorem walkGF_inv (store : List (Nat × GNode)) :
    ∀ (f : Nat) (v : GVal) (depth : Nat) (key : Option String) (seen : List Nat)
      (out : GOut) (seen' tr : List Nat),
      walkGF store f v depth key seen = some (out, seen', tr) →
      SeenInv store seen seen' tr := by
  intro f
  induction f with
  | zero =>
    intro v depth key seen out seen' tr h
    cases h
  | succ f ih =>
    intro v depth key seen out seen' tr h
    by_cases hdep : 25 < depth
    · simp only [walkGF, if_pos hdep] at h
      cases h
      exact SeenInv_refl store seen
    · cases v with
      | gClassified kind raw =>
        simp only [walkGF, if_neg hdep] at h
        cases h
        exact SeenInv_refl store seen
      | gOpaque =>
        simp only [walkGF, if_neg hdep] at h
        cases h
        exact SeenInv_refl store seen
      | gStr s =>
        simp only [walkGF, if_neg hdep] at h
        split at h <;> (cases h; exact SeenInv_refl store seen)
      | gPrim =>
        simp only [walkGF, if_neg hdep] at h
        split at h <;> (cases h; exact SeenInv_refl store seen)
      | gRef id =>
        cases hlk : store.lookup id with
        | none =>
          simp only [walkGF, if_neg hdep, hlk] at h
          cases h
          exact SeenInv_refl store seen
        | some node =>
          cases node with
          | gArr items =>
            rw [walkGF_arr_eq store f id depth key seen items hdep hlk] at h
            cases hr : runItems store f depth items (some ([], seen, [])) with
            | none => rw [hr] at h; cases h
            | some r =>
              rcases r with ⟨os, sn, trr⟩
              rw [hr] at h
              cases h
              rcases runItems_inv store f depth
                  (fun it sn1 o1 sn2 t1 hw => ih it (depth + 1) none sn1 o1 sn2 t1 hw)
                  items [] seen [] os seen' trr hr with ⟨trNew, htr, hinv⟩
              simp only [List.nil_append] at htr
              subst htr
              obtain ⟨hm, ho⟩ := hinv
              refine ⟨hm, fun id0 hobj => ?_⟩
              have hne : id0 ≠ id := by
                intro heq
                subst heq
                simp [isObjNode, hlk] at hobj
              have hcnt : (id :: trr).count id0 = trr.count id0 := by
                rw [List.count_cons]
                simp [Ne.symm hne]
              rw [hcnt]
              exact ho id0 hobj
          | gObjN fields =>
            cases hseen : seen.contains id with
            | true =>
              rw [walkGF_obj_seen store f id depth key seen fields hdep hlk hseen] at h
              cases h
              exact SeenInv_refl store seen
            | false =>
              rw [walkGF_obj_eq store f id depth key seen fields hdep hlk hseen] at h
              cases hr : runFields store f depth fields (some ([], seen ++ [id], [])) with
              | none => rw [hr] at h; cases h
              | some r =>
                rcases r with ⟨os, sn, trr⟩
                rw [hr] at h
                cases h
                rcases runFields_inv store f depth
                    (fun k it sn1 o1 sn2 t1 hw => ih it (depth + 1) (some k) sn1 o1 sn2 t1 hw)
                    fields [] (seen ++ [id]) [] os seen' trr hr with ⟨trNew, htr, hinv⟩
                simp only [List.nil_append] at htr
                subst htr
                obtain ⟨hm, ho⟩ := hinv
                have hidmem : id ∈ seen ++ [id] := by simp
                have hnotseen : id ∉ seen := by
                  intro hmem
                  have hc : seen.contains id = true := List.elem_iff.2 hmem
                  rw [hc] at hseen
                  cases hseen
                refine ⟨fun id0 h0 => hm id0 (by simp [h0]), fun id0 hobj => ?_⟩
                obtain ⟨a0, b0, c0⟩ := ho id0 hobj
                by_cases hne : id0 = id
                · subst hne
                  have hz : trr.count id0 = 0 := a0 hidmem
                  have hcnt : (id0 :: trr).count id0 = 1 := by
                    rw [List.count_cons]
                    simp [hz]
                  rw [hcnt]
                  exact ⟨fun hmem => absurd hmem hnotseen, le_refl 1,
                    fun _ => hm id0 hidmem⟩
                · have hcnt : (id :: trr).count id0 = trr.count id0 := by
                    rw [List.count_cons]
                    simp [Ne.symm hne]
                  rw [hcnt]
                  exact ⟨fun hmem => a0 (by simp [hmem]), b0, c0⟩

/-- C6 (amended): within a single default-configured `redact` call over the
heap, (1) the recursion is insensitive to any stack budget of at least
`maxDepth + 2 = 27` frames and always produces a result — it terminates
without a recursion failure on every heap, including self-referencing
ones; (2) every plain record is expanded at most once — a record
encountered a second time is never re-traversed; (3) a record encountered
while already in the seen-set yields the memoized output reference with
nothing traversed or traced.  (Arrays, by contrast, are not
identity-tracked: a shared or cyclic array reference is re-traversed each
time, bounded only by the depth limit — see the counterexample.) -/
theorem redact_cycle_discipline :
    (∀ (store : List (Nat × GNode)) (v : GVal) (f : Nat), 27 ≤ f →
      walkGF store f v 0 none [] = walkGF store 27 v 0 none [] ∧
      (walkGF store 27 v 0 none []).isSome = true) ∧
    (∀ (store : List (Nat × GNode)) (v : GVal) (out : GOut) (seen' tr : List Nat),
      walkGF store 27 v 0 none [] = some (out, seen', tr) →
      ∀ id, isObjNode store id = true → tr.count id ≤ 1) ∧
    (∀ (store : List (Nat × GNode)) (f id depth : Nat) (key : Option String)
      (seen : List Nat) (fields : List (String × GVal)),
      store.lookup id = some (.gObjN fields) → seen.contains id = true →
      ¬ 25 < depth →
      walkGF store (f + 1) (.gRef id) depth key seen = some (.oRef id, seen, [])) := by
  refine ⟨?_, ?_, ?_⟩
  · intro store v f hf
    constructor
    · rw [walkGF_fuel_stable store v 0 none [] (by omega) f (by omega),
        walkGF_fuel_stable store v 0 none [] (by omega) 27 (by omega)]
    · exact walkGF_total store 27 v 0 none [] (by omega) (by omega)
  · intro store v out seen' tr h id hobj
    exact ((walkGF_inv store 27 v 0 none [] out seen' tr h).2 id hobj).2.1
  · intro store f id depth key seen fields hlk hseen hdep
    exact walkGF_obj_seen store f id depth key seen fields hdep hlk hseen

/-- C6 witness: on a self-referencing record the walk terminates (fuel 30
and fuel 27 agree and succeed); on a record shared twice the shared record
is expanded at most once (its trace count is ≤ 1, and the concrete trace is
`[0, 1]`); a second encounter inside the walk returns the memoized
reference. -/
theorem redact_cycle_discipline_witness :
    (walkGF [(0, GNode.gObjN [("self", GVal.gRef 0)])] 30 (.gRef 0) 0 none [] =
        walkGF [(0, GNode.gObjN [("self", GVal.gRef 0)])] 27 (.gRef 0) 0 none [] ∧
      (walkGF [(0, GNode.gObjN [("self", GVal.gRef 0)])] 27 (.gRef 0) 0 none []).isSome = true) ∧
    ([0, 1] : List Nat).count 1 ≤ 1 ∧
    walkGF [(0, GNode.gObjN [("a", GVal.gRef 1), ("b", GVal.gRef 1)]),
        (1, GNode.gObjN [("x", GVal.gStr "x")])] 27 (.gRef 0) 0 none [] =
      some (.oObjN [("a", .oObjN [("x", .oStr "x")]), ("b", .oRef 1)], [0, 1], [0, 1]) ∧
    walkGF [(0, GNode.gObjN [("x", GVal.gStr "x")])] 5 (.gRef 0) 1 none [0] =
      some (.oRef 0, [0], []) := by
  refine ⟨redact_cycle_discipline.1 _ (.gRef 0) 30 (by omega), ?_, by rfl, ?_⟩
  · exact redact_cycle_discipline.2.1
      [(0, GNode.gObjN [("a", GVal.gRef 1), ("b", GVal.gRef 1)]),
       (1, GNode.gObjN [("x", GVal.gStr "x")])] (.gRef 0)
      (.oObjN [("a", .oObjN [("x", .oStr "x")]), ("b", .oRef 1)]) [0, 1] [0, 1]
      (by rfl) 1 (by rfl)
  · exact redact_cycle_discipline.2.2
      [(0, GNode.gObjN [("x", GVal.gStr "x")])] 4 0 1 none [0]
      [("x", GVal.gStr "x")] (by rfl) (by rfl) (by omega)

/-- C6 counterexample: arrays are not identity-tracked by `redact`'s cycle
cache, so a container that is an array and is encountered a second time via
a shared reference *is* re-traversed: under the object `{a: arr, b: arr}`
with `arr = ["x"]` shared, the traversal trace is `[0, 1, 1]` — array
identity 1 is expanded twice — refuting the claim for array containers. -/
theorem shared_array_retraversed_counterexample :
    redactGTrace [(0, .gObjN [("a", .gRef 1), ("b", .gRef 1)]), (1, .gArr [.gStr "x"])]
      (.gRef 0) = some [0, 1, 1] ∧
    ([0, 1, 1] : List Nat).count 1 = 2 ∧
    List.lookup 1 [(0, GNode.gObjN [("a", GVal.gRef 1), ("b", GVal.gRef 1)]),
      (1, GNode.gArr [GVal.gStr "x"])] = some (.gArr [.gStr "x"]) :=
  ⟨by rfl, by decide, by rfl⟩

end TypeSecure
